import Mathlib

/-!
Verification of the SLG-resolution context contract (`chalk-slg`,
`src/chalk-slg/src/context/mod.rs`).

The repository file under verification declares the *contract* every
concrete term representation must satisfy (traits `Context`, `ContextOps`,
`TruncateOps`, `ResolventOps`, `Aggregate`, `InferenceTable`, `Goal`,
`GoalInEnvironment`, `UniverseMap`, ...); the implementations live outside
the given sources.  Following the specification's data model (§3) and the
contract descriptions (§4), we build one concrete instantiation of the
contract — a first-order term language with inference variables, canonical
binder slots and universe placeholders — and prove the specified properties
of its operations.
-/

namespace ChalkSLG

/-- Modelled from the spec: the term language of the concrete
representation (spec §3 `Parameter`).  A term is a live inference variable,
a canonical binder slot, a universe placeholder, an opaque constant, or an
application. -/
inductive Term where
  | var   : Nat → Term
  | slot  : Nat → Term
  | uvar  : Nat → Term
  | const : Nat → Term
  | app   : Term → Term → Term
deriving DecidableEq, Repr

/-- Modelled from the spec: goals (spec §3 `Goal`): "variant: domain goal /
conjunction / implication / quantified (∀,∃)", plus the distinguished
"unprovable" sentinel, plus the negated form produced by goal inversion
(spec §4.1). -/
inductive Goal where
  | atom        : Term → Goal
  | conj        : Goal → Goal → Goal
  | impl        : Term → Goal → Goal
  | all         : Goal → Goal
  | exist       : Goal → Goal
  | neg         : Goal → Goal
  | cannotProve : Goal
deriving DecidableEq, Repr

/-- Modelled from the spec: an environment is the ordered list of assumed
domain goals in scope (spec §3 `Environment`). -/
def Env : Type := List Term
deriving DecidableEq, Repr

/-- Modelled from the spec: a goal paired with its environment
(spec §3 `GoalInEnvironment`). -/
structure GoalInEnvironment where
  env  : List Term
  goal : Goal
deriving DecidableEq, Repr

/-! ## Canonicalization (spec §4.1, `InferenceTable::canonicalize_goal`)

"replaces every live inference variable with a binder slot numbered by
first-occurrence order".  We collect the live variables of a
goal-in-environment in first-occurrence order (environment first, then
goal, each traversed left to right), then replace `var v` by
`slot (index of v)`. -/

/-- The live variables of a term, appended to `acc` in first-occurrence
order. -/
def termVarList : Term → List Nat → List Nat
  | .var v, acc => if v ∈ acc then acc else acc ++ [v]
  | .app f a, acc => termVarList a (termVarList f acc)
  | _, acc => acc

/-- The live variables of a goal, appended in first-occurrence order. -/
def goalVarList : Goal → List Nat → List Nat
  | .atom t, acc => termVarList t acc
  | .conj g₁ g₂, acc => goalVarList g₂ (goalVarList g₁ acc)
  | .impl t g, acc => goalVarList g (termVarList t acc)
  | .all g, acc => goalVarList g acc
  | .exist g, acc => goalVarList g acc
  | .neg g, acc => goalVarList g acc
  | .cannotProve, acc => acc

/-- The live variables of an environment, appended in first-occurrence
order. -/
def envVarList : List Term → List Nat → List Nat
  | [], acc => acc
  | t :: ts, acc => envVarList ts (termVarList t acc)

/-- All live variables of a goal-in-environment in first-occurrence
order. -/
def gieVarList (x : GoalInEnvironment) : List Nat :=
  goalVarList x.goal (envVarList x.env [])

/-- Position of `v` in a list (length of the list when absent). -/
def posOf (v : Nat) : List Nat → Nat
  | [] => 0
  | w :: ws => if v = w then 0 else posOf v ws + 1

/-- Replace each live variable by the canonical slot numbered by its
position in `vs`. -/
def canonTerm (vs : List Nat) : Term → Term
  | .var v => .slot (posOf v vs)
  | .app f a => .app (canonTerm vs f) (canonTerm vs a)
  | t => t

def canonGoal (vs : List Nat) : Goal → Goal
  | .atom t => .atom (canonTerm vs t)
  | .conj g₁ g₂ => .conj (canonGoal vs g₁) (canonGoal vs g₂)
  | .impl t g => .impl (canonTerm vs t) (canonGoal vs g)
  | .all g => .all (canonGoal vs g)
  | .exist g => .exist (canonGoal vs g)
  | .neg g => .neg (canonGoal vs g)
  | .cannotProve => .cannotProve

def canonEnv (vs : List Nat) : List Term → List Term
  | [] => []
  | t :: ts => canonTerm vs t :: canonEnv vs ts

/-- Modelled from the spec: `InferenceTable::canonicalize_goal` (declared in
the contract, implementation absent from the given sources): "replaces
every live inference variable with a binder slot numbered by
first-occurrence order". -/
def canonicalize_goal (x : GoalInEnvironment) : GoalInEnvironment :=
  let vs := gieVarList x
  ⟨canonEnv vs x.env, canonGoal vs x.goal⟩

/-- Does any live inference variable occur in the term? -/
def termHasVar : Term → Bool
  | .var _ => true
  | .app f a => termHasVar f || termHasVar a
  | _ => false

def goalHasVar : Goal → Bool
  | .atom t => termHasVar t
  | .conj g₁ g₂ => goalHasVar g₁ || goalHasVar g₂
  | .impl t g => termHasVar t || goalHasVar g
  | .all g => goalHasVar g
  | .exist g => goalHasVar g
  | .neg g => goalHasVar g
  | .cannotProve => false

def envHasVar : List Term → Bool
  | [] => false
  | t :: ts => termHasVar t || envHasVar ts

def gieHasVar (x : GoalInEnvironment) : Bool :=
  envHasVar x.env || goalHasVar x.goal

/-- Renaming of live inference variables in a term. -/
def renameTerm (ρ : Nat → Nat) : Term → Term
  | .var v => .var (ρ v)
  | .app f a => .app (renameTerm ρ f) (renameTerm ρ a)
  | t => t

def renameGoal (ρ : Nat → Nat) : Goal → Goal
  | .atom t => .atom (renameTerm ρ t)
  | .conj g₁ g₂ => .conj (renameGoal ρ g₁) (renameGoal ρ g₂)
  | .impl t g => .impl (renameTerm ρ t) (renameGoal ρ g)
  | .all g => .all (renameGoal ρ g)
  | .exist g => .exist (renameGoal ρ g)
  | .neg g => .neg (renameGoal ρ g)
  | .cannotProve => .cannotProve

def renameEnv (ρ : Nat → Nat) : List Term → List Term
  | [] => []
  | t :: ts => renameTerm ρ t :: renameEnv ρ ts

/-- Renaming of live inference variables in a goal-in-environment. -/
def renameGIE (ρ : Nat → Nat) (x : GoalInEnvironment) : GoalInEnvironment :=
  ⟨renameEnv ρ x.env, renameGoal ρ x.goal⟩

/-! ### Canonicalization lemmas -/

theorem canonTerm_noVar (vs : List Nat) (t : Term) :
    termHasVar (canonTerm vs t) = false := by
  induction t with
  | var v => simp [canonTerm, termHasVar]
  | slot b => simp [canonTerm, termHasVar]
  | uvar u => simp [canonTerm, termHasVar]
  | const c => simp [canonTerm, termHasVar]
  | app f a ihf iha => simp [canonTerm, termHasVar, ihf, iha]

theorem canonGoal_noVar (vs : List Nat) (g : Goal) :
    goalHasVar (canonGoal vs g) = false := by
  induction g with
  | atom t => simp [canonGoal, goalHasVar, canonTerm_noVar]
  | conj g₁ g₂ ih₁ ih₂ => simp [canonGoal, goalHasVar, ih₁, ih₂]
  | impl t g ih => simp [canonGoal, goalHasVar, canonTerm_noVar, ih]
  | all g ih => simpa [canonGoal, goalHasVar] using ih
  | exist g ih => simpa [canonGoal, goalHasVar] using ih
  | neg g ih => simpa [canonGoal, goalHasVar] using ih
  | cannotProve => simp [canonGoal, goalHasVar]

theorem canonEnv_noVar (vs : List Nat) (e : List Term) :
    envHasVar (canonEnv vs e) = false := by
  induction e with
  | nil => simp [canonEnv, envHasVar]
  | cons t ts ih => simp [canonEnv, envHasVar, canonTerm_noVar, ih]

theorem termVarList_of_noVar (t : Term) (acc : List Nat)
    (h : termHasVar t = false) : termVarList t acc = acc := by
  induction t with
  | var v => simp [termHasVar] at h
  | slot b => simp [termVarList]
  | uvar u => simp [termVarList]
  | const c => simp [termVarList]
  | app f a ihf iha =>
      simp only [termHasVar, Bool.or_eq_false_iff] at h
      simp [termVarList, ihf h.1, iha h.2]

theorem goalVarList_of_noVar (g : Goal) (acc : List Nat)
    (h : goalHasVar g = false) : goalVarList g acc = acc := by
  induction g generalizing acc with
  | atom t => exact termVarList_of_noVar t acc h
  | conj g₁ g₂ ih₁ ih₂ =>
      simp only [goalHasVar, Bool.or_eq_false_iff] at h
      simp [goalVarList, ih₁ _ h.1, ih₂ _ h.2]
  | impl t g ih =>
      simp only [goalHasVar, Bool.or_eq_false_iff] at h
      simp [goalVarList, termVarList_of_noVar t acc h.1, ih _ h.2]
  | all g ih => exact ih acc h
  | exist g ih => exact ih acc h
  | neg g ih => exact ih acc h
  | cannotProve => simp [goalVarList]

theorem envVarList_of_noVar (e : List Term) (acc : List Nat)
    (h : envHasVar e = false) : envVarList e acc = acc := by
  induction e generalizing acc with
  | nil => simp [envVarList]
  | cons t ts ih =>
      simp only [envHasVar, Bool.or_eq_false_iff] at h
      simp [envVarList, termVarList_of_noVar t acc h.1, ih _ h.2]

theorem canonTerm_of_noVar (vs : List Nat) (t : Term)
    (h : termHasVar t = false) : canonTerm vs t = t := by
  induction t with
  | var v => simp [termHasVar] at h
  | slot b => simp [canonTerm]
  | uvar u => simp [canonTerm]
  | const c => simp [canonTerm]
  | app f a ihf iha =>
      simp only [termHasVar, Bool.or_eq_false_iff] at h
      simp [canonTerm, ihf h.1, iha h.2]

theorem canonGoal_of_noVar (vs : List Nat) (g : Goal)
    (h : goalHasVar g = false) : canonGoal vs g = g := by
  induction g with
  | atom t => simp [canonGoal, canonTerm_of_noVar vs t h]
  | conj g₁ g₂ ih₁ ih₂ =>
      simp only [goalHasVar, Bool.or_eq_false_iff] at h
      simp [canonGoal, ih₁ h.1, ih₂ h.2]
  | impl t g ih =>
      simp only [goalHasVar, Bool.or_eq_false_iff] at h
      simp [canonGoal, canonTerm_of_noVar vs t h.1, ih h.2]
  | all g ih => simp [canonGoal, ih h]
  | exist g ih => simp [canonGoal, ih h]
  | neg g ih => simp [canonGoal, ih h]
  | cannotProve => simp [canonGoal]

theorem canonEnv_of_noVar (vs : List Nat) (e : List Term)
    (h : envHasVar e = false) : canonEnv vs e = e := by
  induction e with
  | nil => simp [canonEnv]
  | cons t ts ih =>
      simp only [envHasVar, Bool.or_eq_false_iff] at h
      simp [canonEnv, canonTerm_of_noVar vs t h.1, ih h.2]

theorem canonicalize_goal_idem (x : GoalInEnvironment) :
    canonicalize_goal (canonicalize_goal x) = canonicalize_goal x := by
  simp only [canonicalize_goal, gieVarList]
  rw [envVarList_of_noVar _ _ (canonEnv_noVar _ _),
      goalVarList_of_noVar _ _ (canonGoal_noVar _ _),
      canonEnv_of_noVar _ _ (canonEnv_noVar _ _),
      canonGoal_of_noVar _ _ (canonGoal_noVar _ _)]

/-! Renaming invariance. -/

theorem termVarList_rename (ρ : Nat → Nat) (hρ : Function.Injective ρ)
    (t : Term) (acc : List Nat) :
    termVarList (renameTerm ρ t) (acc.map ρ) = (termVarList t acc).map ρ := by
  induction t generalizing acc with
  | var v =>
      by_cases hv : v ∈ acc
      · simp [renameTerm, termVarList, hv, List.mem_map_of_mem ρ hv]
      · have : ρ v ∉ acc.map ρ := by
          intro hmem
          rcases List.mem_map.1 hmem with ⟨w, hw, hwv⟩
          exact hv (hρ hwv ▸ hw)
        simp [renameTerm, termVarList, hv, this]
  | slot b => simp [renameTerm, termVarList]
  | uvar u => simp [renameTerm, termVarList]
  | const c => simp [renameTerm, termVarList]
  | app f a ihf iha => simp [renameTerm, termVarList, ihf, iha]

theorem goalVarList_rename (ρ : Nat → Nat) (hρ : Function.Injective ρ)
    (g : Goal) (acc : List Nat) :
    goalVarList (renameGoal ρ g) (acc.map ρ) = (goalVarList g acc).map ρ := by
  induction g generalizing acc with
  | atom t => exact termVarList_rename ρ hρ t acc
  | conj g₁ g₂ ih₁ ih₂ => simp [renameGoal, goalVarList, ih₁, ih₂]
  | impl t g ih => simp [renameGoal, goalVarList, termVarList_rename ρ hρ, ih]
  | all g ih => exact ih acc
  | exist g ih => exact ih acc
  | neg g ih => exact ih acc
  | cannotProve => simp [renameGoal, goalVarList]

theorem envVarList_rename (ρ : Nat → Nat) (hρ : Function.Injective ρ)
    (e : List Term) (acc : List Nat) :
    envVarList (renameEnv ρ e) (acc.map ρ) = (envVarList e acc).map ρ := by
  induction e generalizing acc with
  | nil => simp [renameEnv, envVarList]
  | cons t ts ih => simp [renameEnv, envVarList, termVarList_rename ρ hρ, ih]

theorem posOf_map (ρ : Nat → Nat) (hρ : Function.Injective ρ)
    (v : Nat) (vs : List Nat) : posOf (ρ v) (vs.map ρ) = posOf v vs := by
  induction vs with
  | nil => simp [posOf]
  | cons w ws ih =>
      by_cases hw : v = w
      · simp [posOf, hw]
      · have : ρ v ≠ ρ w := fun h => hw (hρ h)
        simp [posOf, hw, this, ih]

theorem canonTerm_rename (ρ : Nat → Nat) (hρ : Function.Injective ρ)
    (vs : List Nat) (t : Term) :
    canonTerm (vs.map ρ) (renameTerm ρ t) = canonTerm vs t := by
  induction t with
  | var v => simp [renameTerm, canonTerm, posOf_map ρ hρ]
  | slot b => simp [renameTerm, canonTerm]
  | uvar u => simp [renameTerm, canonTerm]
  | const c => simp [renameTerm, canonTerm]
  | app f a ihf iha => simp [renameTerm, canonTerm, ihf, iha]

theorem canonGoal_rename (ρ : Nat → Nat) (hρ : Function.Injective ρ)
    (vs : List Nat) (g : Goal) :
    canonGoal (vs.map ρ) (renameGoal ρ g) = canonGoal vs g := by
  induction g with
  | atom t => simp [renameGoal, canonGoal, canonTerm_rename ρ hρ]
  | conj g₁ g₂ ih₁ ih₂ => simp [renameGoal, canonGoal, ih₁, ih₂]
  | impl t g ih => simp [renameGoal, canonGoal, canonTerm_rename ρ hρ, ih]
  | all g ih => simp [renameGoal, canonGoal, ih]
  | exist g ih => simp [renameGoal, canonGoal, ih]
  | neg g ih => simp [renameGoal, canonGoal, ih]
  | cannotProve => simp [renameGoal, canonGoal]

theorem canonEnv_rename (ρ : Nat → Nat) (hρ : Function.Injective ρ)
    (vs : List Nat) (e : List Term) :
    canonEnv (vs.map ρ) (renameEnv ρ e) = canonEnv vs e := by
  induction e with
  | nil => simp [renameEnv, canonEnv]
  | cons t ts ih => simp [renameEnv, canonEnv, canonTerm_rename ρ hρ, ih]

theorem gieVarList_rename (ρ : Nat → Nat) (hρ : Function.Injective ρ)
    (x : GoalInEnvironment) :
    gieVarList (renameGIE ρ x) = (gieVarList x).map ρ := by
  have h0 : envVarList (renameEnv ρ x.env) (List.map ρ []) =
      (envVarList x.env []).map ρ := envVarList_rename ρ hρ x.env []
  simp only [List.map_nil] at h0
  simp only [gieVarList, renameGIE, h0, goalVarList_rename ρ hρ]

theorem canonicalize_goal_rename (ρ : Nat → Nat) (hρ : Function.Injective ρ)
    (x : GoalInEnvironment) :
    canonicalize_goal (renameGIE ρ x) = canonicalize_goal x := by
  have h := gieVarList_rename ρ hρ x
  simp only [renameGIE] at h
  simp only [canonicalize_goal, renameGIE, h,
    canonEnv_rename ρ hρ, canonGoal_rename ρ hρ]

/-! ## U-canonicalization (spec §4.1, `InferenceTable::u_canonicalize_goal`)

"renumbers universes to consecutive indices from 1 while preserving
relative nesting order, returning both the renumbered goal and a reverse
map".  The visible universes are collected into a strictly sorted list;
universe `u` is renumbered to `position of u + 1`; the sorted list itself
is the reverse map (`UniverseMap`), applied through `List.getD`. -/

/-- Sorted insertion without duplicates. -/
def insertU (u : Nat) : List Nat → List Nat
  | [] => [u]
  | v :: vs =>
      if u < v then u :: v :: vs
      else if u = v then v :: vs
      else v :: insertU u vs

/-- The universes visible in a term, merged into the sorted list `acc`. -/
def termUnivList : Term → List Nat → List Nat
  | .uvar u, acc => insertU u acc
  | .app f a, acc => termUnivList a (termUnivList f acc)
  | _, acc => acc

def goalUnivList : Goal → List Nat → List Nat
  | .atom t, acc => termUnivList t acc
  | .conj g₁ g₂, acc => goalUnivList g₂ (goalUnivList g₁ acc)
  | .impl t g, acc => goalUnivList g (termUnivList t acc)
  | .all g, acc => goalUnivList g acc
  | .exist g, acc => goalUnivList g acc
  | .neg g, acc => goalUnivList g acc
  | .cannotProve, acc => acc

def envUnivList : List Term → List Nat → List Nat
  | [], acc => acc
  | t :: ts, acc => envUnivList ts (termUnivList t acc)

/-- The sorted list of universes visible in a goal-in-environment. -/
def gieUnivList (x : GoalInEnvironment) : List Nat :=
  goalUnivList x.goal (envUnivList x.env [])

/-- Apply a universe mapping to every universe placeholder of a term. -/
def mapUTerm (f : Nat → Nat) : Term → Term
  | .uvar u => .uvar (f u)
  | .app a b => .app (mapUTerm f a) (mapUTerm f b)
  | t => t

def mapUGoal (f : Nat → Nat) : Goal → Goal
  | .atom t => .atom (mapUTerm f t)
  | .conj g₁ g₂ => .conj (mapUGoal f g₁) (mapUGoal f g₂)
  | .impl t g => .impl (mapUTerm f t) (mapUGoal f g)
  | .all g => .all (mapUGoal f g)
  | .exist g => .exist (mapUGoal f g)
  | .neg g => .neg (mapUGoal f g)
  | .cannotProve => .cannotProve

def mapUEnv (f : Nat → Nat) : List Term → List Term
  | [] => []
  | t :: ts => mapUTerm f t :: mapUEnv f ts

def mapUGIE (f : Nat → Nat) (x : GoalInEnvironment) : GoalInEnvironment :=
  ⟨mapUEnv f x.env, mapUGoal f x.goal⟩

/-- Does universe `u` occur (as a placeholder's universe) in the term? -/
def occursUTerm (u : Nat) : Term → Bool
  | .uvar v => u == v
  | .app f a => occursUTerm u f || occursUTerm u a
  | _ => false

def occursUGoal (u : Nat) : Goal → Bool
  | .atom t => occursUTerm u t
  | .conj g₁ g₂ => occursUGoal u g₁ || occursUGoal u g₂
  | .impl t g => occursUTerm u t || occursUGoal u g
  | .all g => occursUGoal u g
  | .exist g => occursUGoal u g
  | .neg g => occursUGoal u g
  | .cannotProve => false

def occursUEnv (u : Nat) : List Term → Bool
  | [] => false
  | t :: ts => occursUTerm u t || occursUEnv u ts

/-- Is universe `u` visible anywhere in the goal-in-environment? -/
def occursUGIE (u : Nat) (x : GoalInEnvironment) : Bool :=
  occursUEnv u x.env || occursUGoal u x.goal

/-- The universe renumbering a u-canonicalization of `x` performs:
universe `u` goes to its rank among the visible universes, counted
from 1. -/
def uRenumber (x : GoalInEnvironment) (u : Nat) : Nat :=
  posOf u (gieUnivList x) + 1

/-- Modelled from the spec: `InferenceTable::u_canonicalize_goal` (declared
in the contract, implementation absent from the given sources): renumbers
universes to consecutive indices from 1 preserving relative order, and
returns the renumbered goal together with the reverse `UniverseMap` (here:
the sorted list of original universes). -/
def u_canonicalize_goal (x : GoalInEnvironment) :
    GoalInEnvironment × List Nat :=
  (mapUGIE (uRenumber x) x, gieUnivList x)

/-- Modelled from the spec: `UniverseMap::map_goal_from_canonical`
(declared in the contract, implementation absent from the given sources):
maps the u-canonical universe indices back to the original universes;
index `k` (numbered from 1) goes back to the `k`-th smallest original
universe. -/
def map_goal_from_canonical (m : List Nat) (x : GoalInEnvironment) :
    GoalInEnvironment :=
  mapUGIE (fun k => m.getD (k - 1) 0) x

/-! ### U-canonicalization lemmas -/

theorem mem_insertU (x u : Nat) (l : List Nat) :
    x ∈ insertU u l ↔ x = u ∨ x ∈ l := by
  induction l with
  | nil => simp [insertU]
  | cons v vs ih =>
      by_cases h1 : u < v
      · simp [insertU, h1]
      · by_cases h2 : u = v
        · subst h2
          have heq : insertU u (u :: vs) = u :: vs := by
            simp [insertU, h1]
          rw [heq, List.mem_cons]
          tauto
        · simp only [insertU, if_neg h1, if_neg h2, List.mem_cons, ih]
          tauto

theorem pairwise_insertU (u : Nat) (l : List Nat)
    (hl : l.Pairwise (· < ·)) : (insertU u l).Pairwise (· < ·) := by
  induction l with
  | nil => simp [insertU]
  | cons v vs ih =>
      rcases List.pairwise_cons.1 hl with ⟨hv, hvs⟩
      by_cases h1 : u < v
      · simp only [insertU, if_pos h1]
        refine List.pairwise_cons.2 ⟨?_, hl⟩
        intro x hx
        rcases List.mem_cons.1 hx with rfl | h
        · exact h1
        · exact lt_trans h1 (hv x h)
      · by_cases h2 : u = v
        · simpa [insertU, h1, h2] using hl
        · simp only [insertU, if_neg h1, if_neg h2]
          refine List.pairwise_cons.2 ⟨?_, ih hvs⟩
          intro x hx
          rcases (mem_insertU x u vs).1 hx with rfl | h
          · omega
          · exact hv x h

theorem mem_termUnivList (x : Nat) (t : Term) (acc : List Nat) :
    x ∈ termUnivList t acc ↔ occursUTerm x t = true ∨ x ∈ acc := by
  induction t generalizing acc with
  | var v => simp [termUnivList, occursUTerm]
  | slot b => simp [termUnivList, occursUTerm]
  | uvar u => simp [termUnivList, occursUTerm, mem_insertU]
  | const c => simp [termUnivList, occursUTerm]
  | app f a ihf iha =>
      simp only [termUnivList, occursUTerm, iha, ihf, Bool.or_eq_true]
      tauto

theorem mem_goalUnivList (x : Nat) (g : Goal) (acc : List Nat) :
    x ∈ goalUnivList g acc ↔ occursUGoal x g = true ∨ x ∈ acc := by
  induction g generalizing acc with
  | atom t => simp [goalUnivList, occursUGoal, mem_termUnivList]
  | conj g₁ g₂ ih₁ ih₂ =>
      simp only [goalUnivList, occursUGoal, ih₁, ih₂, Bool.or_eq_true]
      tauto
  | impl t g ih =>
      simp only [goalUnivList, occursUGoal, ih, mem_termUnivList,
        Bool.or_eq_true]
      tauto
  | all g ih => simp [goalUnivList, occursUGoal, ih]
  | exist g ih => simp [goalUnivList, occursUGoal, ih]
  | neg g ih => simp [goalUnivList, occursUGoal, ih]
  | cannotProve => simp [goalUnivList, occursUGoal]

theorem mem_envUnivList (x : Nat) (e : List Term) (acc : List Nat) :
    x ∈ envUnivList e acc ↔ occursUEnv x e = true ∨ x ∈ acc := by
  induction e generalizing acc with
  | nil => simp [envUnivList, occursUEnv]
  | cons t ts ih =>
      simp only [envUnivList, occursUEnv, ih, mem_termUnivList,
        Bool.or_eq_true]
      tauto

theorem mem_gieUnivList (x : Nat) (g : GoalInEnvironment) :
    x ∈ gieUnivList g ↔ occursUGIE x g = true := by
  simp [gieUnivList, occursUGIE, mem_goalUnivList, mem_envUnivList]
  tauto

theorem pairwise_termUnivList (t : Term) (acc : List Nat)
    (h : acc.Pairwise (· < ·)) : (termUnivList t acc).Pairwise (· < ·) := by
  induction t generalizing acc with
  | var v => exact h
  | slot b => exact h
  | uvar u => exact pairwise_insertU u acc h
  | const c => exact h
  | app f a ihf iha => exact iha _ (ihf _ h)

theorem pairwise_goalUnivList (g : Goal) (acc : List Nat)
    (h : acc.Pairwise (· < ·)) : (goalUnivList g acc).Pairwise (· < ·) := by
  induction g generalizing acc with
  | atom t => exact pairwise_termUnivList t acc h
  | conj g₁ g₂ ih₁ ih₂ => exact ih₂ _ (ih₁ _ h)
  | impl t g ih => exact ih _ (pairwise_termUnivList t acc h)
  | all g ih => exact ih _ h
  | exist g ih => exact ih _ h
  | neg g ih => exact ih _ h
  | cannotProve => exact h

theorem pairwise_envUnivList (e : List Term) (acc : List Nat)
    (h : acc.Pairwise (· < ·)) : (envUnivList e acc).Pairwise (· < ·) := by
  induction e generalizing acc with
  | nil => exact h
  | cons t ts ih => exact ih _ (pairwise_termUnivList t acc h)

theorem pairwise_gieUnivList (x : GoalInEnvironment) :
    (gieUnivList x).Pairwise (· < ·) :=
  pairwise_goalUnivList _ _ (pairwise_envUnivList _ _ (List.Pairwise.nil))

theorem posOf_lt_posOf (l : List Nat) (hl : l.Pairwise (· < ·))
    (u v : Nat) (hu : u ∈ l) (hv : v ∈ l) (huv : u < v) :
    posOf u l < posOf v l := by
  induction l with
  | nil => cases hu
  | cons w ws ih =>
      rcases List.pairwise_cons.1 hl with ⟨hw, hws⟩
      by_cases huw : u = w
      · have hvw : v ≠ w := by omega
        simp [posOf, huw, hvw]
      · have hvw : v ≠ w := by
          intro h
          subst h
          rcases List.mem_cons.1 hu with h | h
          · exact huw h
          · exact absurd (hw u h) (by omega)
        have hu' : u ∈ ws := (List.mem_cons.1 hu).resolve_left huw
        have hv' : v ∈ ws := (List.mem_cons.1 hv).resolve_left hvw
        have := ih hws hu' hv'
        simp only [posOf, if_neg huw, if_neg hvw]
        omega

theorem getD_posOf (l : List Nat) (u d : Nat) (hu : u ∈ l) :
    l.getD (posOf u l) d = u := by
  induction l with
  | nil => cases hu
  | cons w ws ih =>
      by_cases h : u = w
      · simp [posOf, h]
      · have hu' : u ∈ ws := (List.mem_cons.1 hu).resolve_left h
        simp only [posOf, if_neg h, List.getD_cons_succ]
        exact ih hu'

theorem posOf_lt_length (l : List Nat) (u : Nat) (hu : u ∈ l) :
    posOf u l < l.length := by
  induction l with
  | nil => cases hu
  | cons w ws ih =>
      by_cases h : u = w
      · simp [posOf, h]
      · have hu' : u ∈ ws := (List.mem_cons.1 hu).resolve_left h
        simp only [posOf, if_neg h, List.length_cons]
        exact Nat.succ_lt_succ (ih hu')

theorem mapUTerm_mapUTerm (f g : Nat → Nat) (t : Term)
    (h : ∀ u, occursUTerm u t = true → g (f u) = u) :
    mapUTerm g (mapUTerm f t) = t := by
  induction t with
  | var v => simp [mapUTerm]
  | slot b => simp [mapUTerm]
  | uvar u => simp [mapUTerm, h u (by simp [occursUTerm])]
  | const c => simp [mapUTerm]
  | app a b iha ihb =>
      have ha : ∀ u, occursUTerm u a = true → g (f u) = u := fun u hu =>
        h u (by simp [occursUTerm, hu])
      have hb : ∀ u, occursUTerm u b = true → g (f u) = u := fun u hu =>
        h u (by simp [occursUTerm, hu])
      simp [mapUTerm, iha ha, ihb hb]

theorem mapUGoal_mapUGoal (f g : Nat → Nat) (G : Goal)
    (h : ∀ u, occursUGoal u G = true → g (f u) = u) :
    mapUGoal g (mapUGoal f G) = G := by
  induction G with
  | atom t => simp [mapUGoal, mapUTerm_mapUTerm f g t h]
  | conj g₁ g₂ ih₁ ih₂ =>
      have h₁ : ∀ u, occursUGoal u g₁ = true → g (f u) = u := fun u hu =>
        h u (by simp [occursUGoal, hu])
      have h₂ : ∀ u, occursUGoal u g₂ = true → g (f u) = u := fun u hu =>
        h u (by simp [occursUGoal, hu])
      simp [mapUGoal, ih₁ h₁, ih₂ h₂]
  | impl t G' ih =>
      have ht : ∀ u, occursUTerm u t = true → g (f u) = u := fun u hu =>
        h u (by simp [occursUGoal, hu])
      have hg : ∀ u, occursUGoal u G' = true → g (f u) = u := fun u hu =>
        h u (by simp [occursUGoal, hu])
      simp [mapUGoal, mapUTerm_mapUTerm f g t ht, ih hg]
  | all G' ih => simp [mapUGoal, ih (by simpa [occursUGoal] using h)]
  | exist G' ih => simp [mapUGoal, ih (by simpa [occursUGoal] using h)]
  | neg G' ih => simp [mapUGoal, ih (by simpa [occursUGoal] using h)]
  | cannotProve => simp [mapUGoal]

theorem mapUEnv_mapUEnv (f g : Nat → Nat) (e : List Term)
    (h : ∀ u, occursUEnv u e = true → g (f u) = u) :
    mapUEnv g (mapUEnv f e) = e := by
  induction e with
  | nil => simp [mapUEnv]
  | cons t ts ih =>
      have ht : ∀ u, occursUTerm u t = true → g (f u) = u := fun u hu =>
        h u (by simp [occursUEnv, hu])
      have hts : ∀ u, occursUEnv u ts = true → g (f u) = u := fun u hu =>
        h u (by simp [occursUEnv, hu])
      simp [mapUEnv, mapUTerm_mapUTerm f g t ht, ih hts]

theorem mapUGIE_mapUGIE (f g : Nat → Nat) (x : GoalInEnvironment)
    (h : ∀ u, occursUGIE u x = true → g (f u) = u) :
    mapUGIE g (mapUGIE f x) = x := by
  have he : ∀ u, occursUEnv u x.env = true → g (f u) = u := fun u hu =>
    h u (by simp [occursUGIE, hu])
  have hg : ∀ u, occursUGoal u x.goal = true → g (f u) = u := fun u hu =>
    h u (by simp [occursUGIE, hu])
  simp [mapUGIE, mapUEnv_mapUEnv f g _ he, mapUGoal_mapUGoal f g _ hg]

theorem u_canonicalize_roundtrip (x : GoalInEnvironment) :
    map_goal_from_canonical (u_canonicalize_goal x).2
      (u_canonicalize_goal x).1 = x := by
  simp only [u_canonicalize_goal, map_goal_from_canonical]
  apply mapUGIE_mapUGIE
  intro u hu
  have hmem : u ∈ gieUnivList x := (mem_gieUnivList u x).2 hu
  simp only [uRenumber, Nat.add_sub_cancel]
  exact getD_posOf _ u 0 hmem

/-! ## Claim theorems C1, C2 -/

/-- C1: canonicalization is deterministic (it is a pure function of its
input), idempotent (`canonicalize_goal` applied twice equals
`canonicalize_goal` applied once), and variable-identity-independent (two
inputs differing only by a renaming of live inference variables
canonicalize to identical outputs). -/
theorem canonicalize_goal_idem_and_rename_invariant (x : GoalInEnvironment) :
    canonicalize_goal (canonicalize_goal x) = canonicalize_goal x ∧
    (∀ ρ : Nat → Nat, Function.Injective ρ →
      canonicalize_goal (renameGIE ρ x) = canonicalize_goal x) :=
  ⟨canonicalize_goal_idem x, fun ρ hρ => canonicalize_goal_rename ρ hρ x⟩

/-- C2: u-canonicalization renumbers the visible universes to consecutive
indices starting from 1 preserving relative order — visible universes
`u < v` get images `u' < v'`, and every visible universe lands in
`[1, n]` where `n` is the number of visible universes — and applying the
returned `UniverseMap` via `map_goal_from_canonical` to the renumbered
goal recovers the original goal. -/
theorem u_canonicalize_goal_order_and_roundtrip (x : GoalInEnvironment) :
    (u_canonicalize_goal x).1 = mapUGIE (uRenumber x) x ∧
    (∀ u v, occursUGIE u x = true → occursUGIE v x = true → u < v →
      uRenumber x u < uRenumber x v) ∧
    (∀ u, occursUGIE u x = true →
      1 ≤ uRenumber x u ∧
        uRenumber x u ≤ (u_canonicalize_goal x).2.length) ∧
    map_goal_from_canonical (u_canonicalize_goal x).2
      (u_canonicalize_goal x).1 = x := by
  refine ⟨rfl, ?_, ?_, u_canonicalize_roundtrip x⟩
  · intro u v hu hv huv
    have h := posOf_lt_posOf (gieUnivList x) (pairwise_gieUnivList x) u v
      ((mem_gieUnivList u x).2 hu) ((mem_gieUnivList v x).2 hv) huv
    simp only [uRenumber]
    omega
  · intro u hu
    have h := posOf_lt_length (gieUnivList x) u ((mem_gieUnivList u x).2 hu)
    simp only [u_canonicalize_goal, uRenumber]
    omega

/- Sanity checks on concrete inputs. -/

example :
    canonicalize_goal ⟨[.var 9], .atom (.app (.var 4) (.var 9))⟩ =
      ⟨[.slot 0], .atom (.app (.slot 1) (.slot 0))⟩ := by decide

example :
    canonicalize_goal (renameGIE (fun v => v + 5)
        ⟨[.var 9], .atom (.app (.var 4) (.var 9))⟩) =
      ⟨[.slot 0], .atom (.app (.slot 1) (.slot 0))⟩ := by decide

example :
    u_canonicalize_goal ⟨[], .atom (.app (.uvar 7) (.uvar 3))⟩ =
      (⟨[], .atom (.app (.uvar 2) (.uvar 1))⟩, [3, 7]) := by decide

example :
    map_goal_from_canonical [3, 7] ⟨[], .atom (.app (.uvar 2) (.uvar 1))⟩ =
      ⟨[], .atom (.app (.uvar 7) (.uvar 3))⟩ := by decide

/-! ## Truncation (spec §4.3, trait `TruncateOps`)

"if a goal or substitution's term size exceeds an implementation-chosen
threshold, returns a more general over-approximation; otherwise signals
'no truncation needed'."  The size metric chosen here is term depth
(spec §9: "the exact size metric and threshold for truncation is
deliberately unspecified by design"); subterms below the depth bound are
replaced by fresh inference variables drawn from the inference table's
counter, which makes the result an instance-generalization of the
input. -/

/-- The implementation-chosen truncation threshold. -/
def maxDepth : Nat := 3

/-- Depth of a term (the size metric used by truncation). -/
def depthT : Term → Nat
  | .app f a => max (depthT f) (depthT a) + 1
  | _ => 0

def depthG : Goal → Nat
  | .atom t => depthT t
  | .conj g₁ g₂ => max (depthG g₁) (depthG g₂)
  | .impl t g => max (depthT t) (depthG g)
  | .all g => depthG g
  | .exist g => depthG g
  | .neg g => depthG g
  | .cannotProve => 0

def depthE : List Term → Nat
  | [] => 0
  | t :: ts => max (depthT t) (depthE ts)

def depthGIE (x : GoalInEnvironment) : Nat :=
  max (depthE x.env) (depthG x.goal)

/-- Does the live inference variable `v` occur in the term? -/
def occursVTerm (v : Nat) : Term → Bool
  | .var w => v == w
  | .app f a => occursVTerm v f || occursVTerm v a
  | _ => false

def occursVGoal (v : Nat) : Goal → Bool
  | .atom t => occursVTerm v t
  | .conj g₁ g₂ => occursVGoal v g₁ || occursVGoal v g₂
  | .impl t g => occursVTerm v t || occursVGoal v g
  | .all g => occursVGoal v g
  | .exist g => occursVGoal v g
  | .neg g => occursVGoal v g
  | .cannotProve => false

def occursVEnv (v : Nat) : List Term → Bool
  | [] => false
  | t :: ts => occursVTerm v t || occursVEnv v ts

def occursVGIE (v : Nat) (x : GoalInEnvironment) : Bool :=
  occursVEnv v x.env || occursVGoal v x.goal

/-- Substitute live inference variables by terms. -/
def substVTerm (σ : Nat → Term) : Term → Term
  | .var v => σ v
  | .app f a => .app (substVTerm σ f) (substVTerm σ a)
  | t => t

def substVGoal (σ : Nat → Term) : Goal → Goal
  | .atom t => .atom (substVTerm σ t)
  | .conj g₁ g₂ => .conj (substVGoal σ g₁) (substVGoal σ g₂)
  | .impl t g => .impl (substVTerm σ t) (substVGoal σ g)
  | .all g => .all (substVGoal σ g)
  | .exist g => .exist (substVGoal σ g)
  | .neg g => .neg (substVGoal σ g)
  | .cannotProve => .cannotProve

def substVEnv (σ : Nat → Term) : List Term → List Term
  | [] => []
  | t :: ts => substVTerm σ t :: substVEnv σ ts

def substVGIE (σ : Nat → Term) (x : GoalInEnvironment) : GoalInEnvironment :=
  ⟨substVEnv σ x.env, substVGoal σ x.goal⟩

/-- Truncate a term to depth `d`, replacing each cut subterm by a fresh
inference variable; `n` is the inference table's fresh-variable counter,
threaded through and returned. -/
def truncTerm : Nat → Nat → Term → Term × Nat
  | 0, n, .app _ _ => (.var n, n + 1)
  | 0, n, t => (t, n)
  | d + 1, n, .app f a =>
      (.app (truncTerm d n f).1 (truncTerm d (truncTerm d n f).2 a).1,
        (truncTerm d (truncTerm d n f).2 a).2)
  | _ + 1, n, t => (t, n)

def truncGoal : Nat → Nat → Goal → Goal × Nat
  | d, n, .atom t => (.atom (truncTerm d n t).1, (truncTerm d n t).2)
  | d, n, .conj g₁ g₂ =>
      (.conj (truncGoal d n g₁).1 (truncGoal d (truncGoal d n g₁).2 g₂).1,
        (truncGoal d (truncGoal d n g₁).2 g₂).2)
  | d, n, .impl t g =>
      (.impl (truncTerm d n t).1 (truncGoal d (truncTerm d n t).2 g).1,
        (truncGoal d (truncTerm d n t).2 g).2)
  | d, n, .all g => (.all (truncGoal d n g).1, (truncGoal d n g).2)
  | d, n, .exist g => (.exist (truncGoal d n g).1, (truncGoal d n g).2)
  | d, n, .neg g => (.neg (truncGoal d n g).1, (truncGoal d n g).2)
  | _, n, .cannotProve => (.cannotProve, n)

def truncEnv : Nat → Nat → List Term → List Term × Nat
  | _, n, [] => ([], n)
  | d, n, t :: ts =>
      ((truncTerm d n t).1 :: (truncEnv d (truncTerm d n t).2 ts).1,
        (truncEnv d (truncTerm d n t).2 ts).2)

/-- Modelled from the spec: `TruncateOps::truncate_goal` (declared in the
contract, implementation absent from the given sources): `None` when the
goal's size is within the threshold, otherwise a truncated, more general
variant. -/
def truncate_goal (n : Nat) (x : GoalInEnvironment) :
    Option GoalInEnvironment :=
  if depthGIE x ≤ maxDepth then none
  else
    some ⟨(truncEnv maxDepth n x.env).1,
      (truncGoal maxDepth (truncEnv maxDepth n x.env).2 x.goal).1⟩

/-- Modelled from the spec: a `Substitution` binds inference variables (or
canonical slots) to concrete terms (spec §3). -/
def Substitution : Type := List (Nat × Term)
deriving DecidableEq, Repr

def depthS : List (Nat × Term) → Nat
  | [] => 0
  | (_, t) :: s => max (depthT t) (depthS s)

def occursVSubst (v : Nat) : List (Nat × Term) → Bool
  | [] => false
  | (_, t) :: s => occursVTerm v t || occursVSubst v s

def substVSubst (σ : Nat → Term) : List (Nat × Term) → List (Nat × Term)
  | [] => []
  | (w, t) :: s => (w, substVTerm σ t) :: substVSubst σ s

def truncSubst : Nat → Nat → List (Nat × Term) → List (Nat × Term) × Nat
  | _, n, [] => ([], n)
  | d, n, (w, t) :: s =>
      ((w, (truncTerm d n t).1) :: (truncSubst d (truncTerm d n t).2 s).1,
        (truncSubst d (truncTerm d n t).2 s).2)

/-- Modelled from the spec: `TruncateOps::truncate_answer` (declared in the
contract, implementation absent from the given sources): `None` when the
substitution's size is within the threshold, otherwise a truncated, more
general variant. -/
def truncate_answer (n : Nat) (s : Substitution) : Option Substitution :=
  if depthS s ≤ maxDepth then none else some (truncSubst maxDepth n s).1

/-! ### Truncation lemmas, term level -/

theorem depth_truncTerm (d : Nat) : ∀ (n : Nat) (t : Term),
    depthT (truncTerm d n t).1 ≤ d := by
  induction d with
  | zero => intro n t; cases t <;> simp [truncTerm, depthT]
  | succ d ih =>
      intro n t
      cases t with
      | app f a =>
          simp only [truncTerm, depthT]
          exact Nat.succ_le_succ (Nat.max_le.2 ⟨ih n f, ih _ a⟩)
      | var v => simp [truncTerm, depthT]
      | slot b => simp [truncTerm, depthT]
      | uvar u => simp [truncTerm, depthT]
      | const c => simp [truncTerm, depthT]

theorem truncTerm_counter_le (d : Nat) : ∀ (n : Nat) (t : Term),
    n ≤ (truncTerm d n t).2 := by
  induction d with
  | zero => intro n t; cases t <;> simp [truncTerm]
  | succ d ih =>
      intro n t
      cases t with
      | app f a =>
          simp only [truncTerm]
          exact le_trans (ih n f) (ih _ a)
      | var v => simp [truncTerm]
      | slot b => simp [truncTerm]
      | uvar u => simp [truncTerm]
      | const c => simp [truncTerm]

theorem occursV_truncTerm (d : Nat) : ∀ (n v : Nat) (t : Term),
    occursVTerm v (truncTerm d n t).1 = true →
    occursVTerm v t = true ∨ (n ≤ v ∧ v < (truncTerm d n t).2) := by
  induction d with
  | zero =>
      intro n v t h
      cases t with
      | app f a =>
          simp only [truncTerm, occursVTerm, beq_iff_eq] at h
          subst h
          exact Or.inr ⟨Nat.le_refl _, Nat.lt_succ_self _⟩
      | var w => exact Or.inl h
      | slot b => exact Or.inl h
      | uvar u => exact Or.inl h
      | const c => exact Or.inl h
  | succ d ih =>
      intro n v t h
      cases t with
      | app f a =>
          simp only [truncTerm, occursVTerm, Bool.or_eq_true] at h ⊢
          rcases h with h | h
          · rcases ih n v f h with h' | h'
            · exact Or.inl (Or.inl h')
            · exact Or.inr ⟨h'.1, lt_of_lt_of_le h'.2 (truncTerm_counter_le d _ a)⟩
          · rcases ih _ v a h with h' | h'
            · exact Or.inl (Or.inr h')
            · exact Or.inr ⟨le_trans (truncTerm_counter_le d n f) h'.1, h'.2⟩
      | var w => exact Or.inl h
      | slot b => exact Or.inl h
      | uvar u => exact Or.inl h
      | const c => exact Or.inl h

theorem substVTerm_id (t : Term) : substVTerm (fun v => .var v) t = t := by
  induction t with
  | var v => simp [substVTerm]
  | slot b => simp [substVTerm]
  | uvar u => simp [substVTerm]
  | const c => simp [substVTerm]
  | app f a ihf iha => simp [substVTerm, ihf, iha]

theorem substVTerm_congr (σ σ' : Nat → Term) (t : Term)
    (h : ∀ v, occursVTerm v t = true → σ v = σ' v) :
    substVTerm σ t = substVTerm σ' t := by
  induction t with
  | var v => exact h v (by simp [occursVTerm])
  | slot b => rfl
  | uvar u => rfl
  | const c => rfl
  | app f a ihf iha =>
      have hf : ∀ v, occursVTerm v f = true → σ v = σ' v := fun v hv =>
        h v (by simp [occursVTerm, hv])
      have ha : ∀ v, occursVTerm v a = true → σ v = σ' v := fun v hv =>
        h v (by simp [occursVTerm, hv])
      simp [substVTerm, ihf hf, iha ha]

theorem truncTerm_general (d : Nat) : ∀ (t : Term) (n : Nat),
    (∀ v, occursVTerm v t = true → v < n) →
    ∃ σ : Nat → Term, (∀ v, v < n → σ v = .var v) ∧
      substVTerm σ (truncTerm d n t).1 = t := by
  induction d with
  | zero =>
      intro t n hvars
      cases t with
      | app f a =>
          refine ⟨fun v => if v = n then .app f a else .var v, ?_, ?_⟩
          · intro v hv
            have : v ≠ n := by omega
            simp [this]
          · simp [truncTerm, substVTerm]
      | var w => exact ⟨fun v => .var v, fun v _ => rfl, substVTerm_id _⟩
      | slot b => exact ⟨fun v => .var v, fun v _ => rfl, substVTerm_id _⟩
      | uvar u => exact ⟨fun v => .var v, fun v _ => rfl, substVTerm_id _⟩
      | const c => exact ⟨fun v => .var v, fun v _ => rfl, substVTerm_id _⟩
  | succ d ih =>
      intro t n hvars
      cases t with
      | app f a =>
          have hf : ∀ v, occursVTerm v f = true → v < n := fun v hv =>
            hvars v (by simp [occursVTerm, hv])
          have hn' : n ≤ (truncTerm d n f).2 := truncTerm_counter_le d n f
          have ha : ∀ v, occursVTerm v a = true → v < (truncTerm d n f).2 :=
            fun v hv => lt_of_lt_of_le
              (hvars v (by simp [occursVTerm, hv])) hn'
          rcases ih f n hf with ⟨σ₁, hσ₁, hsf⟩
          rcases ih a _ ha with ⟨σ₂, hσ₂, hsa⟩
          refine ⟨fun v => if v < (truncTerm d n f).2 then σ₁ v else σ₂ v,
            ?_, ?_⟩
          · intro v hv
            have hv' : v < (truncTerm d n f).2 := lt_of_lt_of_le hv hn'
            simp [hv', hσ₁ v hv]
          · have h1 : substVTerm
                (fun v => if v < (truncTerm d n f).2 then σ₁ v else σ₂ v)
                (truncTerm d n f).1 = f := by
              rw [substVTerm_congr _ σ₁ _ ?_]
              · exact hsf
              · intro v hv
                rcases occursV_truncTerm d n v f hv with h' | h'
                · simp [lt_of_lt_of_le (hf v h') hn']
                · simp [h'.2]
            have h2 : substVTerm
                (fun v => if v < (truncTerm d n f).2 then σ₁ v else σ₂ v)
                (truncTerm d (truncTerm d n f).2 a).1 = a := by
              rw [substVTerm_congr _ σ₂ _ ?_]
              · exact hsa
              · intro v hv
                rcases occursV_truncTerm d _ v a hv with h' | h'
                · have hvn : v < n := hvars v (by simp [occursVTerm, h'])
                  have hv' : v < (truncTerm d n f).2 :=
                    lt_of_lt_of_le hvn hn'
                  rw [if_pos hv', hσ₁ v hvn, hσ₂ v hv']
                · have : ¬ v < (truncTerm d n f).2 := by omega
                  simp [this]
            simp only [truncTerm, substVTerm, h1, h2]
      | var w => exact ⟨fun v => .var v, fun v _ => rfl, substVTerm_id _⟩
      | slot b => exact ⟨fun v => .var v, fun v _ => rfl, substVTerm_id _⟩
      | uvar u => exact ⟨fun v => .var v, fun v _ => rfl, substVTerm_id _⟩
      | const c => exact ⟨fun v => .var v, fun v _ => rfl, substVTerm_id _⟩

/-! ### Truncation lemmas, goal level -/

theorem depth_truncGoal (d : Nat) (g : Goal) : ∀ n : Nat,
    depthG (truncGoal d n g).1 ≤ d := by
  induction g with
  | atom t => intro n; exact depth_truncTerm d n t
  | conj g₁ g₂ ih₁ ih₂ =>
      intro n
      simp only [truncGoal, depthG]
      exact Nat.max_le.2 ⟨ih₁ n, ih₂ _⟩
  | impl t g ih =>
      intro n
      simp only [truncGoal, depthG]
      exact Nat.max_le.2 ⟨depth_truncTerm d n t, ih _⟩
  | all g ih => intro n; simpa [truncGoal, depthG] using ih n
  | exist g ih => intro n; simpa [truncGoal, depthG] using ih n
  | neg g ih => intro n; simpa [truncGoal, depthG] using ih n
  | cannotProve => intro n; simp [truncGoal, depthG]

theorem truncGoal_counter_le (d : Nat) (g : Goal) : ∀ n : Nat,
    n ≤ (truncGoal d n g).2 := by
  induction g with
  | atom t => intro n; exact truncTerm_counter_le d n t
  | conj g₁ g₂ ih₁ ih₂ =>
      intro n
      simp only [truncGoal]
      exact le_trans (ih₁ n) (ih₂ _)
  | impl t g ih =>
      intro n
      simp only [truncGoal]
      exact le_trans (truncTerm_counter_le d n t) (ih _)
  | all g ih => intro n; simpa [truncGoal] using ih n
  | exist g ih => intro n; simpa [truncGoal] using ih n
  | neg g ih => intro n; simpa [truncGoal] using ih n
  | cannotProve => intro n; simp [truncGoal]

theorem occursV_truncGoal (d : Nat) (g : Goal) : ∀ n v : Nat,
    occursVGoal v (truncGoal d n g).1 = true →
    occursVGoal v g = true ∨ (n ≤ v ∧ v < (truncGoal d n g).2) := by
  induction g with
  | atom t => intro n v h; exact occursV_truncTerm d n v t h
  | conj g₁ g₂ ih₁ ih₂ =>
      intro n v h
      simp only [truncGoal, occursVGoal, Bool.or_eq_true] at h ⊢
      rcases h with h | h
      · rcases ih₁ n v h with h' | h'
        · exact Or.inl (Or.inl h')
        · exact Or.inr ⟨h'.1, lt_of_lt_of_le h'.2 (truncGoal_counter_le d g₂ _)⟩
      · rcases ih₂ _ v h with h' | h'
        · exact Or.inl (Or.inr h')
        · exact Or.inr ⟨le_trans (truncGoal_counter_le d g₁ n) h'.1, h'.2⟩
  | impl t g ih =>
      intro n v h
      simp only [truncGoal, occursVGoal, Bool.or_eq_true] at h ⊢
      rcases h with h | h
      · rcases occursV_truncTerm d n v t h with h' | h'
        · exact Or.inl (Or.inl h')
        · exact Or.inr ⟨h'.1, lt_of_lt_of_le h'.2 (truncGoal_counter_le d g _)⟩
      · rcases ih _ v h with h' | h'
        · exact Or.inl (Or.inr h')
        · exact Or.inr ⟨le_trans (truncTerm_counter_le d n t) h'.1, h'.2⟩
  | all g ih => intro n v h; exact ih n v h
  | exist g ih => intro n v h; exact ih n v h
  | neg g ih => intro n v h; exact ih n v h
  | cannotProve => intro n v h; exact Or.inl h

theorem substVGoal_id (g : Goal) : substVGoal (fun v => .var v) g = g := by
  induction g with
  | atom t => simp [substVGoal, substVTerm_id]
  | conj g₁ g₂ ih₁ ih₂ => simp [substVGoal, ih₁, ih₂]
  | impl t g ih => simp [substVGoal, substVTerm_id, ih]
  | all g ih => simp [substVGoal, ih]
  | exist g ih => simp [substVGoal, ih]
  | neg g ih => simp [substVGoal, ih]
  | cannotProve => simp [substVGoal]

theorem substVGoal_congr (σ σ' : Nat → Term) (g : Goal)
    (h : ∀ v, occursVGoal v g = true → σ v = σ' v) :
    substVGoal σ g = substVGoal σ' g := by
  induction g with
  | atom t => simp [substVGoal, substVTerm_congr σ σ' t h]
  | conj g₁ g₂ ih₁ ih₂ =>
      have h₁ : ∀ v, occursVGoal v g₁ = true → σ v = σ' v := fun v hv =>
        h v (by simp [occursVGoal, hv])
      have h₂ : ∀ v, occursVGoal v g₂ = true → σ v = σ' v := fun v hv =>
        h v (by simp [occursVGoal, hv])
      simp [substVGoal, ih₁ h₁, ih₂ h₂]
  | impl t g ih =>
      have ht : ∀ v, occursVTerm v t = true → σ v = σ' v := fun v hv =>
        h v (by simp [occursVGoal, hv])
      have hg : ∀ v, occursVGoal v g = true → σ v = σ' v := fun v hv =>
        h v (by simp [occursVGoal, hv])
      simp [substVGoal, substVTerm_congr σ σ' t ht, ih hg]
  | all g ih => simp [substVGoal, ih (by simpa [occursVGoal] using h)]
  | exist g ih => simp [substVGoal, ih (by simpa [occursVGoal] using h)]
  | neg g ih => simp [substVGoal, ih (by simpa [occursVGoal] using h)]
  | cannotProve => simp [substVGoal]

theorem truncGoal_general (d : Nat) (g : Goal) : ∀ n : Nat,
    (∀ v, occursVGoal v g = true → v < n) →
    ∃ σ : Nat → Term, (∀ v, v < n → σ v = .var v) ∧
      substVGoal σ (truncGoal d n g).1 = g := by
  induction g with
  | atom t =>
      intro n hvars
      rcases truncTerm_general d t n hvars with ⟨σ, hσ, hs⟩
      exact ⟨σ, hσ, by simp [truncGoal, substVGoal, hs]⟩
  | conj g₁ g₂ ih₁ ih₂ =>
      intro n hvars
      have h₁ : ∀ v, occursVGoal v g₁ = true → v < n := fun v hv =>
        hvars v (by simp [occursVGoal, hv])
      have hn' : n ≤ (truncGoal d n g₁).2 := truncGoal_counter_le d g₁ n
      have h₂ : ∀ v, occursVGoal v g₂ = true → v < (truncGoal d n g₁).2 :=
        fun v hv => lt_of_lt_of_le (hvars v (by simp [occursVGoal, hv])) hn'
      rcases ih₁ n h₁ with ⟨σ₁, hσ₁, hs₁⟩
      rcases ih₂ _ h₂ with ⟨σ₂, hσ₂, hs₂⟩
      refine ⟨fun v => if v < (truncGoal d n g₁).2 then σ₁ v else σ₂ v,
        ?_, ?_⟩
      · intro v hv
        have hv' : v < (truncGoal d n g₁).2 := lt_of_lt_of_le hv hn'
        simp [hv', hσ₁ v hv]
      · have e₁ : substVGoal
            (fun v => if v < (truncGoal d n g₁).2 then σ₁ v else σ₂ v)
            (truncGoal d n g₁).1 = g₁ := by
          rw [substVGoal_congr _ σ₁ _ ?_]
          · exact hs₁
          · intro v hv
            rcases occursV_truncGoal d g₁ n v hv with h' | h'
            · simp [lt_of_lt_of_le (h₁ v h') hn']
            · simp [h'.2]
        have e₂ : substVGoal
            (fun v => if v < (truncGoal d n g₁).2 then σ₁ v else σ₂ v)
            (truncGoal d (truncGoal d n g₁).2 g₂).1 = g₂ := by
          rw [substVGoal_congr _ σ₂ _ ?_]
          · exact hs₂
          · intro v hv
            rcases occursV_truncGoal d g₂ _ v hv with h' | h'
            · have hvn : v < n := hvars v (by simp [occursVGoal, h'])
              have hv' : v < (truncGoal d n g₁).2 := lt_of_lt_of_le hvn hn'
              rw [if_pos hv', hσ₁ v hvn, hσ₂ v hv']
            · have : ¬ v < (truncGoal d n g₁).2 := by omega
              simp [this]
        simp only [truncGoal, substVGoal, e₁, e₂]
  | impl t g ih =>
      intro n hvars
      have ht : ∀ v, occursVTerm v t = true → v < n := fun v hv =>
        hvars v (by simp [occursVGoal, hv])
      have hn' : n ≤ (truncTerm d n t).2 := truncTerm_counter_le d n t
      have hg : ∀ v, occursVGoal v g = true → v < (truncTerm d n t).2 :=
        fun v hv => lt_of_lt_of_le (hvars v (by simp [occursVGoal, hv])) hn'
      rcases truncTerm_general d t n ht with ⟨σ₁, hσ₁, hs₁⟩
      rcases ih _ hg with ⟨σ₂, hσ₂, hs₂⟩
      refine ⟨fun v => if v < (truncTerm d n t).2 then σ₁ v else σ₂ v,
        ?_, ?_⟩
      · intro v hv
        have hv' : v < (truncTerm d n t).2 := lt_of_lt_of_le hv hn'
        simp [hv', hσ₁ v hv]
      · have e₁ : substVTerm
            (fun v => if v < (truncTerm d n t).2 then σ₁ v else σ₂ v)
            (truncTerm d n t).1 = t := by
          rw [substVTerm_congr _ σ₁ _ ?_]
          · exact hs₁
          · intro v hv
            rcases occursV_truncTerm d n v t hv with h' | h'
            · simp [lt_of_lt_of_le (ht v h') hn']
            · simp [h'.2]
        have e₂ : substVGoal
            (fun v => if v < (truncTerm d n t).2 then σ₁ v else σ₂ v)
            (truncGoal d (truncTerm d n t).2 g).1 = g := by
          rw [substVGoal_congr _ σ₂ _ ?_]
          · exact hs₂
          · intro v hv
            rcases occursV_truncGoal d g _ v hv with h' | h'
            · have hvn : v < n := hvars v (by simp [occursVGoal, h'])
              have hv' : v < (truncTerm d n t).2 := lt_of_lt_of_le hvn hn'
              rw [if_pos hv', hσ₁ v hvn, hσ₂ v hv']
            · have : ¬ v < (truncTerm d n t).2 := by omega
              simp [this]
        simp only [truncGoal, substVGoal, e₁, e₂]
  | all g ih =>
      intro n hvars
      rcases ih n hvars with ⟨σ, hσ, hs⟩
      exact ⟨σ, hσ, by simp [truncGoal, substVGoal, hs]⟩
  | exist g ih =>
      intro n hvars
      rcases ih n hvars with ⟨σ, hσ, hs⟩
      exact ⟨σ, hσ, by simp [truncGoal, substVGoal, hs]⟩
  | neg g ih =>
      intro n hvars
      rcases ih n hvars with ⟨σ, hσ, hs⟩
      exact ⟨σ, hσ, by simp [truncGoal, substVGoal, hs]⟩
  | cannotProve =>
      intro n _
      exact ⟨fun v => .var v, fun v _ => rfl, by simp [truncGoal, substVGoal]⟩

/-! ### Truncation lemmas, environment and substitution level -/

theorem depth_truncEnv (d : Nat) (e : List Term) : ∀ n : Nat,
    depthE (truncEnv d n e).1 ≤ d := by
  induction e with
  | nil => intro n; simp [truncEnv, depthE]
  | cons t ts ih =>
      intro n
      simp only [truncEnv, depthE]
      exact Nat.max_le.2 ⟨depth_truncTerm d n t, ih _⟩

theorem truncEnv_counter_le (d : Nat) (e : List Term) : ∀ n : Nat,
    n ≤ (truncEnv d n e).2 := by
  induction e with
  | nil => intro n; simp [truncEnv]
  | cons t ts ih =>
      intro n
      simp only [truncEnv]
      exact le_trans (truncTerm_counter_le d n t) (ih _)

theorem occursV_truncEnv (d : Nat) (e : List Term) : ∀ n v : Nat,
    occursVEnv v (truncEnv d n e).1 = true →
    occursVEnv v e = true ∨ (n ≤ v ∧ v < (truncEnv d n e).2) := by
  induction e with
  | nil => intro n v h; exact Or.inl h
  | cons t ts ih =>
      intro n v h
      simp only [truncEnv, occursVEnv, Bool.or_eq_true] at h ⊢
      rcases h with h | h
      · rcases occursV_truncTerm d n v t h with h' | h'
        · exact Or.inl (Or.inl h')
        · exact Or.inr ⟨h'.1, lt_of_lt_of_le h'.2 (truncEnv_counter_le d ts _)⟩
      · rcases ih _ v h with h' | h'
        · exact Or.inl (Or.inr h')
        · exact Or.inr ⟨le_trans (truncTerm_counter_le d n t) h'.1, h'.2⟩

theorem substVEnv_id (e : List Term) : substVEnv (fun v => .var v) e = e := by
  induction e with
  | nil => simp [substVEnv]
  | cons t ts ih => simp [substVEnv, substVTerm_id, ih]

theorem substVEnv_congr (σ σ' : Nat → Term) (e : List Term)
    (h : ∀ v, occursVEnv v e = true → σ v = σ' v) :
    substVEnv σ e = substVEnv σ' e := by
  induction e with
  | nil => simp [substVEnv]
  | cons t ts ih =>
      have ht : ∀ v, occursVTerm v t = true → σ v = σ' v := fun v hv =>
        h v (by simp [occursVEnv, hv])
      have hts : ∀ v, occursVEnv v ts = true → σ v = σ' v := fun v hv =>
        h v (by simp [occursVEnv, hv])
      simp [substVEnv, substVTerm_congr σ σ' t ht, ih hts]

theorem truncEnv_general (d : Nat) (e : List Term) : ∀ n : Nat,
    (∀ v, occursVEnv v e = true → v < n) →
    ∃ σ : Nat → Term, (∀ v, v < n → σ v = .var v) ∧
      substVEnv σ (truncEnv d n e).1 = e := by
  induction e with
  | nil =>
      intro n _
      exact ⟨fun v => .var v, fun v _ => rfl, by simp [truncEnv, substVEnv]⟩
  | cons t ts ih =>
      intro n hvars
      have ht : ∀ v, occursVTerm v t = true → v < n := fun v hv =>
        hvars v (by simp [occursVEnv, hv])
      have hn' : n ≤ (truncTerm d n t).2 := truncTerm_counter_le d n t
      have hts : ∀ v, occursVEnv v ts = true → v < (truncTerm d n t).2 :=
        fun v hv => lt_of_lt_of_le (hvars v (by simp [occursVEnv, hv])) hn'
      rcases truncTerm_general d t n ht with ⟨σ₁, hσ₁, hs₁⟩
      rcases ih _ hts with ⟨σ₂, hσ₂, hs₂⟩
      refine ⟨fun v => if v < (truncTerm d n t).2 then σ₁ v else σ₂ v,
        ?_, ?_⟩
      · intro v hv
        have hv' : v < (truncTerm d n t).2 := lt_of_lt_of_le hv hn'
        simp [hv', hσ₁ v hv]
      · have e₁ : substVTerm
            (fun v => if v < (truncTerm d n t).2 then σ₁ v else σ₂ v)
            (truncTerm d n t).1 = t := by
          rw [substVTerm_congr _ σ₁ _ ?_]
          · exact hs₁
          · intro v hv
            rcases occursV_truncTerm d n v t hv with h' | h'
            · simp [lt_of_lt_of_le (ht v h') hn']
            · simp [h'.2]
        have e₂ : substVEnv
            (fun v => if v < (truncTerm d n t).2 then σ₁ v else σ₂ v)
            (truncEnv d (truncTerm d n t).2 ts).1 = ts := by
          rw [substVEnv_congr _ σ₂ _ ?_]
          · exact hs₂
          · intro v hv
            rcases occursV_truncEnv d ts _ v hv with h' | h'
            · have hvn : v < n := hvars v (by simp [occursVEnv, h'])
              have hv' : v < (truncTerm d n t).2 := lt_of_lt_of_le hvn hn'
              rw [if_pos hv', hσ₁ v hvn, hσ₂ v hv']
            · have : ¬ v < (truncTerm d n t).2 := by omega
              simp [this]
        simp only [truncEnv, substVEnv, e₁, e₂]

theorem depth_truncSubst (d : Nat) (s : List (Nat × Term)) : ∀ n : Nat,
    depthS (truncSubst d n s).1 ≤ d := by
  induction s with
  | nil => intro n; simp [truncSubst, depthS]
  | cons p ps ih =>
      intro n
      rcases p with ⟨w, t⟩
      simp only [truncSubst, depthS]
      exact Nat.max_le.2 ⟨depth_truncTerm d n t, ih _⟩

theorem substVSubst_id (s : List (Nat × Term)) :
    substVSubst (fun v => .var v) s = s := by
  induction s with
  | nil => simp [substVSubst]
  | cons p ps ih =>
      rcases p with ⟨w, t⟩
      simp [substVSubst, substVTerm_id, ih]

theorem substVSubst_congr (σ σ' : Nat → Term) (s : List (Nat × Term))
    (h : ∀ v, occursVSubst v s = true → σ v = σ' v) :
    substVSubst σ s = substVSubst σ' s := by
  induction s with
  | nil => simp [substVSubst]
  | cons p ps ih =>
      rcases p with ⟨w, t⟩
      have ht : ∀ v, occursVTerm v t = true → σ v = σ' v := fun v hv =>
        h v (by simp [occursVSubst, hv])
      have hps : ∀ v, occursVSubst v ps = true → σ v = σ' v := fun v hv =>
        h v (by simp [occursVSubst, hv])
      simp [substVSubst, substVTerm_congr σ σ' t ht, ih hps]

theorem truncSubst_counter_le (d : Nat) (s : List (Nat × Term)) : ∀ n : Nat,
    n ≤ (truncSubst d n s).2 := by
  induction s with
  | nil => intro n; simp [truncSubst]
  | cons p ps ih =>
      intro n
      rcases p with ⟨w, t⟩
      simp only [truncSubst]
      exact le_trans (truncTerm_counter_le d n t) (ih _)

theorem occursV_truncSubst (d : Nat) (s : List (Nat × Term)) : ∀ n v : Nat,
    occursVSubst v (truncSubst d n s).1 = true →
    occursVSubst v s = true ∨ (n ≤ v ∧ v < (truncSubst d n s).2) := by
  induction s with
  | nil => intro n v h; exact Or.inl h
  | cons p ps ih =>
      intro n v h
      rcases p with ⟨w, t⟩
      simp only [truncSubst, occursVSubst, Bool.or_eq_true] at h ⊢
      rcases h with h | h
      · rcases occursV_truncTerm d n v t h with h' | h'
        · exact Or.inl (Or.inl h')
        · exact Or.inr ⟨h'.1,
            lt_of_lt_of_le h'.2 (truncSubst_counter_le d ps _)⟩
      · rcases ih _ v h with h' | h'
        · exact Or.inl (Or.inr h')
        · exact Or.inr ⟨le_trans (truncTerm_counter_le d n t) h'.1, h'.2⟩

theorem truncSubst_general (d : Nat) (s : List (Nat × Term)) : ∀ n : Nat,
    (∀ v, occursVSubst v s = true → v < n) →
    ∃ σ : Nat → Term, (∀ v, v < n → σ v = .var v) ∧
      substVSubst σ (truncSubst d n s).1 = s := by
  induction s with
  | nil =>
      intro n _
      exact ⟨fun v => .var v, fun v _ => rfl, by simp [truncSubst, substVSubst]⟩
  | cons p ps ih =>
      intro n hvars
      rcases p with ⟨w, t⟩
      have ht : ∀ v, occursVTerm v t = true → v < n := fun v hv =>
        hvars v (by simp [occursVSubst, hv])
      have hn' : n ≤ (truncTerm d n t).2 := truncTerm_counter_le d n t
      have hps : ∀ v, occursVSubst v ps = true → v < (truncTerm d n t).2 :=
        fun v hv => lt_of_lt_of_le (hvars v (by simp [occursVSubst, hv])) hn'
      rcases truncTerm_general d t n ht with ⟨σ₁, hσ₁, hs₁⟩
      rcases ih _ hps with ⟨σ₂, hσ₂, hs₂⟩
      refine ⟨fun v => if v < (truncTerm d n t).2 then σ₁ v else σ₂ v,
        ?_, ?_⟩
      · intro v hv
        have hv' : v < (truncTerm d n t).2 := lt_of_lt_of_le hv hn'
        simp [hv', hσ₁ v hv]
      · have e₁ : substVTerm
            (fun v => if v < (truncTerm d n t).2 then σ₁ v else σ₂ v)
            (truncTerm d n t).1 = t := by
          rw [substVTerm_congr _ σ₁ _ ?_]
          · exact hs₁
          · intro v hv
            rcases occursV_truncTerm d n v t hv with h' | h'
            · simp [lt_of_lt_of_le (ht v h') hn']
            · simp [h'.2]
        have e₂ : substVSubst
            (fun v => if v < (truncTerm d n t).2 then σ₁ v else σ₂ v)
            (truncSubst d (truncTerm d n t).2 ps).1 = ps := by
          rw [substVSubst_congr _ σ₂ _ ?_]
          · exact hs₂
          · intro v hv
            rcases occursV_truncSubst d ps _ v hv with h' | h'
            · have hvn : v < n := hvars v (by simp [occursVSubst, h'])
              have hv' : v < (truncTerm d n t).2 := lt_of_lt_of_le hvn hn'
              rw [if_pos hv', hσ₁ v hvn, hσ₂ v hv']
            · have : ¬ v < (truncTerm d n t).2 := by omega
              simp [this]
        simp only [truncSubst, substVSubst, e₁, e₂]

theorem truncGIE_general (n : Nat) (x : GoalInEnvironment)
    (hvars : ∀ v, occursVGIE v x = true → v < n) :
    ∃ σ : Nat → Term,
      substVGIE σ ⟨(truncEnv maxDepth n x.env).1,
        (truncGoal maxDepth (truncEnv maxDepth n x.env).2 x.goal).1⟩ = x := by
  have he : ∀ v, occursVEnv v x.env = true → v < n := fun v hv =>
    hvars v (by simp [occursVGIE, hv])
  have hn' : n ≤ (truncEnv maxDepth n x.env).2 :=
    truncEnv_counter_le maxDepth x.env n
  have hg : ∀ v, occursVGoal v x.goal = true →
      v < (truncEnv maxDepth n x.env).2 := fun v hv =>
    lt_of_lt_of_le (hvars v (by simp [occursVGIE, hv])) hn'
  rcases truncEnv_general maxDepth x.env n he with ⟨σ₁, hσ₁, hs₁⟩
  rcases truncGoal_general maxDepth x.goal _ hg with ⟨σ₂, hσ₂, hs₂⟩
  refine ⟨fun v => if v < (truncEnv maxDepth n x.env).2 then σ₁ v else σ₂ v,
    ?_⟩
  have e₁ : substVEnv
      (fun v => if v < (truncEnv maxDepth n x.env).2 then σ₁ v else σ₂ v)
      (truncEnv maxDepth n x.env).1 = x.env := by
    rw [substVEnv_congr _ σ₁ _ ?_]
    · exact hs₁
    · intro v hv
      rcases occursV_truncEnv maxDepth x.env n v hv with h' | h'
      · simp [lt_of_lt_of_le (he v h') hn']
      · simp [h'.2]
  have e₂ : substVGoal
      (fun v => if v < (truncEnv maxDepth n x.env).2 then σ₁ v else σ₂ v)
      (truncGoal maxDepth (truncEnv maxDepth n x.env).2 x.goal).1 =
        x.goal := by
    rw [substVGoal_congr _ σ₂ _ ?_]
    · exact hs₂
    · intro v hv
      rcases occursV_truncGoal maxDepth x.goal _ v hv with h' | h'
      · have hvn : v < n := hvars v (by simp [occursVGIE, h'])
        have hv' : v < (truncEnv maxDepth n x.env).2 :=
          lt_of_lt_of_le hvn hn'
        rw [if_pos hv', hσ₁ v hvn, hσ₂ v hv']
      · have : ¬ v < (truncEnv maxDepth n x.env).2 := by omega
        simp [this]
  simp [substVGIE, e₁, e₂]

/-- C3: truncation returns `none` exactly when the input's size (term
depth) is within the implementation threshold `maxDepth`; otherwise it
returns a more general over-approximation (the input is a substitution
instance of the output, provided the inference table's fresh counter `n`
dominates the live variables, as it does by construction); and it is
idempotent on its own output: a returned truncation is itself within the
threshold, so truncating it reports "no truncation needed".  Likewise for
`truncate_answer` on substitutions. -/
theorem truncate_ops_spec (n : Nat) (x : GoalInEnvironment)
    (s : Substitution) :
    (truncate_goal n x = none ↔ depthGIE x ≤ maxDepth) ∧
    (∀ t, truncate_goal n x = some t →
      (∀ m, truncate_goal m t = none) ∧
      ((∀ v, occursVGIE v x = true → v < n) →
        ∃ σ : Nat → Term, substVGIE σ t = x)) ∧
    (truncate_answer n s = none ↔ depthS s ≤ maxDepth) ∧
    (∀ s', truncate_answer n s = some s' →
      (∀ m, truncate_answer m s' = none) ∧
      ((∀ v, occursVSubst v s = true → v < n) →
        ∃ σ : Nat → Term, substVSubst σ s' = s)) := by
  refine ⟨?_, ?_, ?_, ?_⟩
  · by_cases h : depthGIE x ≤ maxDepth <;> simp [truncate_goal, h]
  · intro t ht
    by_cases h : depthGIE x ≤ maxDepth
    · simp [truncate_goal, h] at ht
    · simp only [truncate_goal, if_neg h, Option.some.injEq] at ht
      subst ht
      constructor
      · intro m
        have hd : depthGIE ⟨(truncEnv maxDepth n x.env).1,
            (truncGoal maxDepth (truncEnv maxDepth n x.env).2 x.goal).1⟩ ≤
              maxDepth := by
          exact Nat.max_le.2 ⟨depth_truncEnv maxDepth x.env n,
            depth_truncGoal maxDepth x.goal _⟩
        simp [truncate_goal, hd]
      · intro hvars
        exact truncGIE_general n x hvars
  · by_cases h : depthS s ≤ maxDepth <;> simp [truncate_answer, h]
  · intro s' hs'
    by_cases h : depthS s ≤ maxDepth
    · simp [truncate_answer, h] at hs'
    · simp only [truncate_answer, if_neg h, Option.some.injEq] at hs'
      subst hs'
      constructor
      · intro m
        have hd : depthS (truncSubst maxDepth n s).1 ≤ maxDepth :=
          depth_truncSubst maxDepth s n
        simp [truncate_answer, hd]
      · intro hvars
        rcases truncSubst_general maxDepth s n hvars with ⟨σ, _, hσ⟩
        exact ⟨σ, hσ⟩

/- Sanity checks: a depth-4 term is truncated, and truncating the result
reports "no truncation needed". -/

def bigGIE : GoalInEnvironment :=
  ⟨[], .atom (.app (.app (.app (.app (.const 0) (.const 0)) (.const 0))
    (.const 0)) (.const 0))⟩

example : (truncate_goal 0 bigGIE).isSome = true := by decide

example : (truncate_goal 0 bigGIE).map (fun t => truncate_goal 7 t) =
    some none := by decide

example : truncate_goal 0 ⟨[], .atom (.app (.const 0) (.const 1))⟩ =
    none := by decide

/-! ## Resolution step (spec §4.2, trait `ResolventOps`) -/

/-- Modelled from the spec: the recoverable "no-solution" outcome
(spec §7); `Fallible<T>` in the contract is `Result<T, NoSolution>`. -/
inductive NoSolution where
  | noSolution
deriving DecidableEq, Repr

/-- Look up the binding of an inference variable. -/
def lookupBinding (v : Nat) : List (Nat × Term) → Option Term
  | [] => none
  | (w, t) :: s => if v = w then some t else lookupBinding v s

/-- Record a binding, failing on a conflicting rebinding. -/
def addBinding (v : Nat) (t : Term) (s : List (Nat × Term)) :
    Option (List (Nat × Term)) :=
  match lookupBinding v s with
  | some t' => if t = t' then some s else none
  | none => some ((v, t) :: s)

/-- Modelled from the spec: structural first-order unification with a
mandatory occurs-check (spec §4.1, §6), accumulating bindings into the
substitution `s`; `none` means "incompatible". -/
def unifyTerm : Term → Term → List (Nat × Term) → Option (List (Nat × Term))
  | .var v, t, s =>
      if t = .var v then some s
      else if occursVTerm v t then none
      else addBinding v t s
  | t, .var v, s =>
      if occursVTerm v t then none else addBinding v t s
  | .app f a, .app g b, s =>
      match unifyTerm f g s with
      | none => none
      | some s' => unifyTerm a b s'
  | .slot b₁, .slot b₂, s => if b₁ = b₂ then some s else none
  | .uvar u₁, .uvar u₂, s => if u₁ = u₂ then some s else none
  | .const c₁, .const c₂, s => if c₁ = c₂ then some s else none
  | _, _, _ => none

/-- Modelled from the spec: the result of a successful parameter
unification — new bindings plus generated side-obligations
(spec §4.1: "new bindings plus any generated side-obligations"); purely
structural unification generates no obligations. -/
structure UnificationResult where
  newSubst : Substitution
  obligations : List GoalInEnvironment
deriving DecidableEq, Repr

/-- Unification packaged with its side-obligations. -/
def unifyWithResult (a b : Term) (s : Substitution) :
    Option UnificationResult :=
  match unifyTerm a b s with
  | none => none
  | some s' => some ⟨s', []⟩

/-- Modelled from the spec: a deferred region constraint
(spec §3 `ConstraintInEnvironment`), propagated but never verified
here. -/
structure RegionConstraint where
  env : List Term
  lhs : Term
  rhs : Term
deriving DecidableEq, Repr

/-- Modelled from the spec: in-progress proof state (spec §3 `ExClause`):
accumulated substitution, ordered residual-subgoal list, accumulated
constraints. -/
structure ExClause where
  subst : Substitution
  subgoals : List GoalInEnvironment
  constraints : List RegionConstraint
deriving DecidableEq, Repr

/-- Modelled from the spec: a rule "DomainGoal holds if Goal holds"
(spec §3 `ProgramClause`). -/
structure ProgramClause where
  head : Term
  body : List Goal
deriving DecidableEq, Repr

/-- Apply the accumulated substitution to a term. -/
def applySubstTerm (s : Substitution) (t : Term) : Term :=
  substVTerm (fun v => match lookupBinding v s with
    | some u => u
    | none => .var v) t

/-- Modelled from the spec: `ResolventOps::resolvent_clause` (declared in
the contract, implementation absent from the given sources): "unifies a
candidate clause's head against the current domain goal and substitution;
on success returns an ExClause whose residual subgoals are the clause
body's conjuncts (each paired with the current environment) plus any
unification side-obligations.  Fails ('no-solution') on head-unification
failure." -/
def resolvent_clause (env : List Term) (goal : Term) (subst : Substitution)
    (clause : ProgramClause) : Except NoSolution ExClause :=
  match unifyWithResult (applySubstTerm subst goal) clause.head subst with
  | none => .error .noSolution
  | some r =>
      .ok ⟨r.newSubst,
        clause.body.map (fun g => ⟨env, g⟩) ++ r.obligations, []⟩

/-- C4: clause application fails with the recoverable "no-solution"
outcome exactly when the clause's head does not unify with the current
domain goal under the accumulated substitution; on success it returns an
ExClause whose residual subgoals are precisely the clause body's
conjuncts, each paired with the current environment, followed by the
unification side-obligations. -/
theorem resolvent_clause_spec (env : List Term) (goal : Term)
    (subst : Substitution) (clause : ProgramClause) :
    (resolvent_clause env goal subst clause = .error .noSolution ↔
      unifyWithResult (applySubstTerm subst goal) clause.head subst =
        none) ∧
    (∀ r, unifyWithResult (applySubstTerm subst goal) clause.head subst =
        some r →
      resolvent_clause env goal subst clause =
        .ok ⟨r.newSubst,
          clause.body.map (fun g => ⟨env, g⟩) ++ r.obligations, []⟩) := by
  constructor
  · cases h : unifyWithResult (applySubstTerm subst goal) clause.head
        subst with
    | none => simp [resolvent_clause, h]
    | some r => simp [resolvent_clause, h]
  · intro r hr
    simp [resolvent_clause, hr]

/- Sanity checks: head mismatch is a recoverable failure; a matching head
yields the body's conjuncts as subgoals. -/

example :
    resolvent_clause [] (.const 5) [] ⟨.const 6, []⟩ =
      .error .noSolution := rfl

example :
    resolvent_clause [.const 9] (.app (.const 5) (.var 0)) []
        ⟨.app (.const 5) (.const 7), [.atom (.const 8)]⟩ =
      .ok ⟨[(0, .const 7)], [⟨[.const 9], .atom (.const 8)⟩], []⟩ := rfl

/-! ## Answer aggregation (spec §4.5, trait `Aggregate`) -/

/-- Modelled from the spec: part of an answer exposed to aggregation
(spec §2.6, §3): a canonicalized substitution plus an ambiguity flag. -/
structure SimplifiedAnswer where
  subst : Substitution
  ambiguous : Bool
deriving DecidableEq, Repr

/-- Modelled from the spec: the opaque final solution handed back to the
caller (spec §3 `Solution`). -/
inductive Solution where
  | unique : Substitution → Solution
  | ambig : Solution
deriving DecidableEq, Repr

/-- Modelled from the spec: `Aggregate::make_solution` (declared in the
contract, implementation absent from the given sources): folds the
possibly lazily produced answer sequence into one opaque result, or an
absent result if no answer exists; it examines at most the first two
answers, so it never depends on the sequence being fully
materialized. -/
def make_solution (root : GoalInEnvironment)
    (answers : List SimplifiedAnswer) : Option Solution :=
  match answers with
  | [] => none
  | [a] => if a.ambiguous then some .ambig else some (.unique a.subst)
  | _ :: _ :: _ => some .ambig

/-- C5: answer aggregation returns an absent result if and only if the
answer sequence for the root goal is empty, and its result is already
determined by the two-element prefix of the sequence — so a lazily
produced sequence is never forced beyond that prefix, and a present
result exists for every non-empty sequence. -/
theorem make_solution_spec (root : GoalInEnvironment)
    (answers : List SimplifiedAnswer) :
    (make_solution root answers = none ↔ answers = []) ∧
    make_solution root answers = make_solution root (answers.take 2) := by
  cases answers with
  | nil => simp [make_solution]
  | cons a as =>
      cases as with
      | nil =>
          constructor
          · by_cases h : a.ambiguous <;> simp [make_solution, h]
          · rfl
      | cons b bs =>
          constructor
          · simp [make_solution]
          · rfl

/-! ## The inference table and its operations (trait `InferenceTable`) -/

/-- Modelled from the spec: the inference table owns the fresh-variable
and fresh-universe counters and the accumulated variable bindings
(spec §3, §4.1); it is created fresh per query and passed explicitly to
every operation. -/
structure InferenceTable where
  nextVar : Nat
  nextUniverse : Nat
  varBindings : List (Nat × Term)
deriving DecidableEq, Repr

/-- Canonical slots of a term in first-occurrence order. -/
def termSlotList : Term → List Nat → List Nat
  | .slot b, acc => if b ∈ acc then acc else acc ++ [b]
  | .app f a, acc => termSlotList a (termSlotList f acc)
  | _, acc => acc

def goalSlotList : Goal → List Nat → List Nat
  | .atom t, acc => termSlotList t acc
  | .conj g₁ g₂, acc => goalSlotList g₂ (goalSlotList g₁ acc)
  | .impl t g, acc => goalSlotList g (termSlotList t acc)
  | .all g, acc => goalSlotList g acc
  | .exist g, acc => goalSlotList g acc
  | .neg g, acc => goalSlotList g acc
  | .cannotProve, acc => acc

def envSlotList : List Term → List Nat → List Nat
  | [], acc => acc
  | t :: ts, acc => envSlotList ts (termSlotList t acc)

def gieSlotList (x : GoalInEnvironment) : List Nat :=
  goalSlotList x.goal (envSlotList x.env [])

/-- Substitute canonical slot `b` by a term. -/
def substSlotTerm (b : Nat) (u : Term) : Term → Term
  | .slot k => if k = b then u else .slot k
  | .app f a => .app (substSlotTerm b u f) (substSlotTerm b u a)
  | t => t

def substSlotGoal (b : Nat) (u : Term) : Goal → Goal
  | .atom t => .atom (substSlotTerm b u t)
  | .conj g₁ g₂ => .conj (substSlotGoal b u g₁) (substSlotGoal b u g₂)
  | .impl t g => .impl (substSlotTerm b u t) (substSlotGoal b u g)
  | .all g => .all (substSlotGoal b u g)
  | .exist g => .exist (substSlotGoal b u g)
  | .neg g => .neg (substSlotGoal b u g)
  | .cannotProve => .cannotProve

/-- Modelled from the spec: `InferenceTable::canonicalize_goal` as an
operation on the table: resolve the accumulated bindings, then
canonicalize; the table itself is read, not changed. -/
def canonicalizeOp (tbl : InferenceTable) (x : GoalInEnvironment) :
    GoalInEnvironment × InferenceTable :=
  (canonicalize_goal (substVGIE (fun v =>
    match lookupBinding v tbl.varBindings with
    | some u => u
    | none => .var v) x), tbl)

/-- Modelled from the spec: fresh-substitution generation (spec §4.1):
"produces one brand-new inference variable per canonical slot", advancing
the fresh-variable counter. -/
def fresh_subst_for_goal (tbl : InferenceTable) (x : GoalInEnvironment) :
    Substitution × InferenceTable :=
  ((List.range (gieSlotList x).length).map
      (fun i => (i, Term.var (tbl.nextVar + i))),
    { tbl with nextVar := tbl.nextVar + (gieSlotList x).length })

/-- Modelled from the spec: universal binder instantiation (spec §4.1):
allocates a placeholder in a universe strictly higher than every visible
one, advancing the universe counter. -/
def instantiate_binders_universally (tbl : InferenceTable) (g : Goal) :
    Goal × InferenceTable :=
  (substSlotGoal 0 (.uvar tbl.nextUniverse) g,
    { tbl with nextUniverse := tbl.nextUniverse + 1 })

/-- Modelled from the spec: existential binder instantiation (spec §4.1):
allocates one fresh inference variable, advancing the variable counter. -/
def instantiate_binders_existentially (tbl : InferenceTable) (g : Goal) :
    Goal × InferenceTable :=
  (substSlotGoal 0 (.var tbl.nextVar) g,
    { tbl with nextVar := tbl.nextVar + 1 })

/-- Modelled from the spec: `InferenceTable::unify_parameters`
(spec §4.1): structural unification under an environment, recording the
new bindings in the table on success. -/
def unify_parameters (tbl : InferenceTable) (env : List Term) (a b : Term) :
    Except NoSolution UnificationResult × InferenceTable :=
  match unifyTerm a b tbl.varBindings with
  | none => (.error .noSolution, tbl)
  | some s => (.ok ⟨s, []⟩, { tbl with varBindings := s })

/-! Debug rendering (diagnostic-only, spec §4.1). -/

def termString : Term → String
  | .var v => "?" ++ toString v
  | .slot b => "!" ++ toString b
  | .uvar u => "U" ++ toString u
  | .const c => "c" ++ toString c
  | .app f a => "(" ++ termString f ++ " " ++ termString a ++ ")"

def goalString : Goal → String
  | .atom t => termString t
  | .conj g₁ g₂ => "(" ++ goalString g₁ ++ " && " ++ goalString g₂ ++ ")"
  | .impl t g => "(" ++ termString t ++ " ==> " ++ goalString g ++ ")"
  | .all g => "(forall " ++ goalString g ++ ")"
  | .exist g => "(exists " ++ goalString g ++ ")"
  | .neg g => "(not " ++ goalString g ++ ")"
  | .cannotProve => "CannotProve"

def envString : List Term → String
  | [] => ""
  | [t] => termString t
  | t :: ts => termString t ++ ", " ++ envString ts

def gieString (x : GoalInEnvironment) : String :=
  "[" ++ envString x.env ++ "] ||- " ++ goalString x.goal

def substString : List (Nat × Term) → String
  | [] => ""
  | (v, t) :: s => "?" ++ toString v ++ " := " ++ termString t ++ "; " ++
      substString s

def subgoalsString : List GoalInEnvironment → String
  | [] => ""
  | [x] => gieString x
  | x :: xs => gieString x ++ ", " ++ subgoalsString xs

def exClauseString (x : ExClause) : String :=
  "subst " ++ substString x.subst ++ " |- " ++ subgoalsString x.subgoals

/-- Modelled from the spec: `InferenceTable::debug_ex_clause` (declared in
the contract as taking the table by mutable reference, "for debugging
only"): renders the ex-clause and leaves the table untouched. -/
def debug_ex_clause (tbl : InferenceTable) (x : ExClause) :
    String × InferenceTable :=
  (exClauseString x, tbl)

/-- Modelled from the spec: `InferenceTable::debug_goal` (declared in the
contract, "for debugging only"): renders the goal and leaves the table
untouched. -/
def debug_goal (tbl : InferenceTable) (x : GoalInEnvironment) :
    String × InferenceTable :=
  (gieString x, tbl)

/-- C9: the debug rendering operations are diagnostic-only: although they
receive the inference table, the table they hand back is exactly the one
they received, so every solving operation — canonicalization,
unification, universal and existential instantiation, fresh-substitution
generation — returns after a debug call exactly what it would have
returned without it. -/
theorem debug_ops_no_influence (tbl : InferenceTable) (x : ExClause)
    (y z : GoalInEnvironment) (g : Goal) (env : List Term) (a b : Term) :
    (debug_ex_clause tbl x).2 = tbl ∧
    (debug_goal tbl y).2 = tbl ∧
    canonicalizeOp (debug_ex_clause tbl x).2 z = canonicalizeOp tbl z ∧
    unify_parameters (debug_ex_clause tbl x).2 env a b =
      unify_parameters tbl env a b ∧
    instantiate_binders_universally (debug_ex_clause tbl x).2 g =
      instantiate_binders_universally tbl g ∧
    instantiate_binders_existentially (debug_goal tbl y).2 g =
      instantiate_binders_existentially tbl g ∧
    fresh_subst_for_goal (debug_goal tbl y).2 z =
      fresh_subst_for_goal tbl z :=
  ⟨rfl, rfl, rfl, rfl, rfl, rfl, rfl⟩

/-! ## Coinduction classification (spec §4.4, `ContextOps::is_coinductive`) -/

/-- Modelled from the spec: the per-query context: the clause program and
the set of predicates classified coinductive (e.g. auto traits); fixed for
the lifetime of one query (spec §4.4, §6). -/
structure QueryContext where
  program : List ProgramClause
  coinductiveSyms : List Nat
deriving DecidableEq, Repr

/-- Modelled from the spec: the full mutable state of one query: the fixed
context plus the evolving inference table (spec §3: the inference table
"accumulates bindings as the query proceeds"). -/
structure QueryState where
  ctx : QueryContext
  infer : InferenceTable
deriving DecidableEq, Repr

/-- Head predicate symbol of a domain-goal term. -/
def headSymbol : Term → Option Nat
  | .const c => some c
  | .app f _ => headSymbol f
  | _ => none

def goalHeadSymbol : Goal → Option Nat
  | .atom t => headSymbol t
  | _ => none

/-- Modelled from the spec: `ContextOps::is_coinductive` (declared in the
contract, implementation absent from the given sources): classification
reads only the fixed per-query context, never the mutable inference
state. -/
def is_coinductive (s : QueryState) (x : GoalInEnvironment) : Bool :=
  match goalHeadSymbol x.goal with
  | some p => s.ctx.coinductiveSyms.contains p
  | none => false

/-- C6: coinduction classification is consistent within one query: two
calls on the same u-canonical goal made at any two states of the same
query (same fixed context, arbitrarily different mutable inference state)
return the same boolean. -/
theorem is_coinductive_consistent (s₁ s₂ : QueryState)
    (x : GoalInEnvironment) (h : s₁.ctx = s₂.ctx) :
    is_coinductive s₁ x = is_coinductive s₂ x := by
  simp [is_coinductive, h]

theorem is_coinductive_consistent_witness :
    is_coinductive ⟨⟨[], [4]⟩, ⟨0, 0, []⟩⟩ ⟨[], .atom (.const 4)⟩ =
      is_coinductive ⟨⟨[], [4]⟩, ⟨7, 3, [(0, .const 1)]⟩⟩
        ⟨[], .atom (.const 4)⟩ :=
  is_coinductive_consistent ⟨⟨[], [4]⟩, ⟨0, 0, []⟩⟩
    ⟨⟨[], [4]⟩, ⟨7, 3, [(0, .const 1)]⟩⟩ ⟨[], .atom (.const 4)⟩ rfl

/-! ## Goal inversion (spec §4.1, `InferenceTable::invert_goal`) -/

/-- Modelled from the spec: `InferenceTable::invert_goal` (declared in
the contract, implementation absent from the given sources): "returns an
absent result if the goal is not safely invertible (e.g. contains live
non-ground variables that cannot be soundly flipped), otherwise the
negated goal." -/
def invert_goal (x : GoalInEnvironment) : Option GoalInEnvironment :=
  if gieHasVar x then none else some ⟨x.env, .neg x.goal⟩

theorem termHasVar_iff (t : Term) :
    termHasVar t = true ↔ ∃ v, occursVTerm v t = true := by
  induction t with
  | var v => simp [termHasVar, occursVTerm]
  | slot b => simp [termHasVar, occursVTerm]
  | uvar u => simp [termHasVar, occursVTerm]
  | const c => simp [termHasVar, occursVTerm]
  | app f a ihf iha =>
      simp [termHasVar, occursVTerm, Bool.or_eq_true, ihf, iha, exists_or]

theorem goalHasVar_iff (g : Goal) :
    goalHasVar g = true ↔ ∃ v, occursVGoal v g = true := by
  induction g with
  | atom t => exact termHasVar_iff t
  | conj g₁ g₂ ih₁ ih₂ =>
      simp [goalHasVar, occursVGoal, Bool.or_eq_true, ih₁, ih₂, exists_or]
  | impl t g ih =>
      simp [goalHasVar, occursVGoal, Bool.or_eq_true, termHasVar_iff, ih,
        exists_or]
  | all g ih => exact ih
  | exist g ih => exact ih
  | neg g ih => exact ih
  | cannotProve => simp [goalHasVar, occursVGoal]

theorem envHasVar_iff (e : List Term) :
    envHasVar e = true ↔ ∃ v, occursVEnv v e = true := by
  induction e with
  | nil => simp [envHasVar, occursVEnv]
  | cons t ts ih =>
      simp [envHasVar, occursVEnv, Bool.or_eq_true, termHasVar_iff, ih,
        exists_or]

theorem gieHasVar_iff (x : GoalInEnvironment) :
    gieHasVar x = true ↔ ∃ v, occursVGIE v x = true := by
  simp [gieHasVar, occursVGIE, Bool.or_eq_true, envHasVar_iff,
    goalHasVar_iff, exists_or]

/-- C7: goal inversion returns an absent result exactly when the goal is
not safely invertible — some live inference variable occurs in it — and
otherwise returns the negated goal in the unchanged environment. -/
theorem invert_goal_spec (x : GoalInEnvironment) :
    (invert_goal x = none ↔ ∃ v, occursVGIE v x = true) ∧
    (∀ y, invert_goal x = some y → y = ⟨x.env, .neg x.goal⟩) := by
  constructor
  · constructor
    · intro hnone
      by_cases h : gieHasVar x
      · exact (gieHasVar_iff x).1 h
      · simp [invert_goal, h] at hnone
    · intro hex
      have h : gieHasVar x = true := (gieHasVar_iff x).2 hex
      simp [invert_goal, h]
  · intro y hy
    by_cases h : gieHasVar x
    · simp [invert_goal, h] at hy
    · simp only [invert_goal, h, Bool.false_eq_true, if_false,
        Option.some.injEq] at hy
      exact hy.symm

example : invert_goal ⟨[], .atom (.app (.const 2) (.var 0))⟩ = none := by
  decide

example : invert_goal ⟨[.const 1], .atom (.const 2)⟩ =
    some ⟨[.const 1], .neg (.atom (.const 2))⟩ := by decide

/-! ## The "unprovable" sentinel (spec §3, `Goal::cannot_prove`) -/

/-- Modelled from the spec: `Goal::cannot_prove` (declared in the
contract, implementation absent from the given sources): the
distinguished "unprovable" sentinel goal.  It is a constant of the model,
so for a given context it always yields the same value. -/
def cannot_prove : Goal := .cannotProve

/-- Modelled from the spec: provability of a goal in an environment
against a clause program (spec §4.6 and the scenarios of §8): an atom
holds by hypothesis or through a program clause, conjunctions and
implications by their introduction rules, quantified goals by
instantiating the binder slot.  No rule concludes the sentinel. -/
inductive Proves (prog : List ProgramClause) : List Term → Goal → Prop where
  | hyp : ∀ env t, t ∈ env → Proves prog env (.atom t)
  | clause : ∀ env (c : ProgramClause) (σ : Nat → Term), c ∈ prog →
      (∀ g ∈ c.body, Proves prog env (substVGoal σ g)) →
      Proves prog env (.atom (substVTerm σ c.head))
  | conjI : ∀ env g₁ g₂, Proves prog env g₁ → Proves prog env g₂ →
      Proves prog env (.conj g₁ g₂)
  | implI : ∀ env t g, Proves prog (t :: env) g →
      Proves prog env (.impl t g)
  | allI : ∀ env g, (∀ t : Term, Proves prog env (substSlotGoal 0 t g)) →
      Proves prog env (.all g)
  | existI : ∀ env g t, Proves prog env (substSlotGoal 0 t g) →
      Proves prog env (.exist g)

/-- C8: the sentinel `cannot_prove` is distinct (under the `Goal` type's
decidable equality) from every provable goal: no derivation proves a goal
equal to it.  (That `cannot_prove` always yields the same value is
definitional: it is a constant.) -/
theorem cannot_prove_distinct_from_provable (prog : List ProgramClause)
    (env : List Term) (g : Goal) (h : Proves prog env g) :
    g ≠ cannot_prove := by
  cases h <;> simp [cannot_prove]

theorem cannot_prove_distinct_witness :
    Goal.atom (.const 0) ≠ cannot_prove :=
  cannot_prove_distinct_from_provable [] [.const 0] (.atom (.const 0))
    (Proves.hyp [.const 0] (.const 0) (List.mem_singleton.2 rfl))

/-! ## Pairing constructor and projection
(`ContextOps::goal_in_environment`, `GoalInEnvironment::environment`) -/

/-- Modelled from the spec: `ContextOps::goal_in_environment` (declared in
the contract, implementation absent from the given sources): "combines a
Goal and an Environment into a GoalInEnvironment" (spec §4.4). -/
def goal_in_environment (env : List Term) (g : Goal) : GoalInEnvironment :=
  ⟨env, g⟩

/-- Modelled from the spec: `GoalInEnvironment::environment` — the
environment projection of the pair. -/
def GoalInEnvironment.environment (x : GoalInEnvironment) : List Term :=
  x.env

/-- C10: pairing and projection round-trip: the `GoalInEnvironment` built
by `goal_in_environment env g` answers `environment = env` — the pairing
constructor stores the given environment unchanged and the accessor
retrieves exactly it (and likewise the goal component is stored
unchanged). -/
theorem goal_in_environment_environment (env : List Term) (g : Goal) :
    (goal_in_environment env g).environment = env ∧
    (goal_in_environment env g).goal = g :=
  ⟨rfl, rfl⟩

end ChalkSLG
